import Mathlib

/-!
Shallow embedding of the Beat_Fitness statistics / streak engine
(`src/utils/statistics.ts` and `src/utils/streaks.ts`).

Modelling conventions:

* JS `number` is modelled by `ℚ` (all values the engine manipulates are
  produced by +, *, /, Math.round on integral data, so no floating-point
  rounding is observable at the granularity of the claims).
* Absolute instants (ISO timestamp strings) are modelled by `ℤ`
  milliseconds since the Unix epoch; the observer's timezone is a fixed
  offset `tz : ℤ` in milliseconds added to UTC to obtain local time
  (the JS engine's local zone, no DST transitions in the model).
* `YYYY-MM-DD` date keys are modelled by their civil (local) day number
  `ℤ` (days since 1970-01-01) in the streak logic, and by the actual
  formatted `String` where string structure matters (toLocalDateString,
  getWorkoutDatesForMonth).  `new Date('YYYY-MM-DD')` parses the key as
  *UTC midnight* of that day, i.e. instant `day * 86400000`.
* `Date.prototype.setDate(getDate() - k)` under a fixed offset subtracts
  exactly `k * 86400000` ms (calendar-day arithmetic preserving local
  time of day).
* JS `Math.round` rounds half toward +infinity: `⌊x + 1/2⌋`.
* JS `Map` / `Set` iteration order only affects output list order; the
  claims are stated up to membership, and `Set` contents are modelled
  with `Finset`.
-/

namespace BeatFitness

/-- JS `Math.round`: round half toward positive infinity. -/
def jsRound (q : ℚ) : ℤ := (q + 1/2).floor

/-- JS `Math.round(x * 10) / 10`: round to one decimal place. -/
def round1 (q : ℚ) : ℚ := (jsRound (q * 10) : ℚ) / 10

theorem jsRound_eq (q : ℚ) : jsRound q = ⌊q + 1/2⌋ := by
  rw [jsRound, Rat.floor_def', Rat.floor_def]

theorem jsRound_intCast (z : ℤ) : jsRound (z : ℚ) = z := by
  rw [jsRound_eq, Int.floor_eq_iff]
  constructor <;> linarith

@[simp] theorem jsRound_zero : jsRound 0 = 0 := by
  simpa using jsRound_intCast 0

theorem round1_intCast (z : ℤ) : round1 (z : ℚ) = z := by
  rw [round1, show ((z : ℚ) * 10) = ((z * 10 : ℤ) : ℚ) by push_cast; ring,
    jsRound_intCast]
  push_cast; ring

@[simp] theorem round1_zero : round1 0 = 0 := by
  simpa using round1_intCast 0

/-- Milliseconds in one civil day. -/
def dayMs : ℤ := 86400000

/-- The `WorkoutSet` (src/types/models.ts): `reps: number`,
`weight: number | null`, `rir: number | null`, `completed_at` timestamp. -/
structure WorkoutSet where
  reps : ℚ
  weight : Option ℚ
  rir : Option ℚ
  completed_at : ℤ
deriving DecidableEq

/-- The `WorkoutExercise` with the optional nested `workout_sets` array of the
duck-typed fetch result (`workout_sets?`). -/
structure WorkoutExercise where
  name : String
  workout_sets : Option (List WorkoutSet)
deriving DecidableEq

/-- The `NestedWorkoutSession`: a session with the optional nested
`workout_exercises` array. -/
structure NestedWorkoutSession where
  started_at : ℤ
  ended_at : Option ℤ
  total_duration_sec : Option ℚ
  strength_score : Option ℚ
  workout_exercises : Option (List WorkoutExercise)
deriving DecidableEq

/-- The `exercise.workout_sets?.forEach`: a missing array contributes nothing. -/
def setsOf (e : WorkoutExercise) : List WorkoutSet := e.workout_sets.getD []

/-- The `session.workout_exercises?.forEach`. -/
def exercisesOf (s : NestedWorkoutSession) : List WorkoutExercise :=
  s.workout_exercises.getD []

/-- A session is completed iff `ended_at` is non-null. -/
def isCompleted (s : NestedWorkoutSession) : Bool := s.ended_at.isSome

/-- The `(set.weight || 0) * (set.reps || 0)`: the volume of one set
(null weight treated as 0; `reps || 0` is the identity on numbers). -/
def setVolume (st : WorkoutSet) : ℚ := st.weight.getD 0 * st.reps

/-- All sets of a session, in traversal order. -/
def sessionSets (s : NestedWorkoutSession) : List WorkoutSet :=
  (exercisesOf s).flatMap setsOf

/-! ### Dates: the local-day model

`toLocalDateString` reads `getFullYear()/getMonth()/getDate()` — the
Gregorian components of the instant in the observer's timezone — and
formats them as `YYYY-MM-DD`.  Under a fixed UTC offset `tz` (ms), those
three components are exactly the Gregorian decomposition of the *local
civil day number* `⌊(t + tz) / 86400000⌋`, so a date key is faithfully
represented by that day number, and the string form is obtained by
formatting its Gregorian decomposition. -/

/-- Local civil day number (days since 1970-01-01) of instant `t` for a
fixed UTC offset `tz`, both in milliseconds. -/
def localDayOf (tz t : ℤ) : ℤ := (t + tz).fdiv dayMs

/-- Gregorian `(year, month, day)` of a civil day number (days since
1970-01-01); the standard `civil_from_days` algorithm, which is what a
JS `Date`'s local components compute under a fixed offset. -/
def civilFromDays (z : ℤ) : ℤ × ℕ × ℕ :=
  let z' := z + 719468
  let era := z'.fdiv 146097
  let doe := (z' - era * 146097).toNat
  let yoe := (doe - doe / 1460 + doe / 36524 - doe / 146096) / 365
  let y := (yoe : ℤ) + era * 400
  let doy := doe - (365 * yoe + yoe / 4 - yoe / 100)
  let mp := (5 * doy + 2) / 153
  let d := doy - (153 * mp + 2) / 5 + 1
  let m := if mp < 10 then mp + 3 else mp + 3 - 12
  (y + (if m ≤ 2 then 1 else 0), m, d)

/-- Civil day number of a Gregorian date; inverse of `civilFromDays`
(the standard `days_from_civil` algorithm). -/
def daysFromCivil (y : ℤ) (m d : ℕ) : ℤ :=
  let y' := y - (if m ≤ 2 then 1 else 0)
  let era := y'.fdiv 400
  let yoe := (y' - era * 400).toNat
  let mp := if 2 < m then m - 3 else m + 9
  let doy := (153 * mp + 2) / 5 + d - 1
  let doe := yoe * 365 + yoe / 4 - yoe / 100 + doy
  era * 146097 + (doe : ℤ) - 719468

/-- Decimal digits of `n`, most significant first (`f` is fuel, always
called with `f = n`, which suffices since `n / 10 < n`). -/
def digitsRevAux : ℕ → ℕ → List ℕ
  | 0, _ => []
  | f + 1, n => if n = 0 then [] else n % 10 :: digitsRevAux f (n / 10)

/-- JS `String(n)` for a natural number. -/
def natStr (n : ℕ) : String :=
  if n = 0 then "0" else ⟨((digitsRevAux n n).reverse.map Nat.digitChar)⟩

/-- JS `String(n).padStart(2, '0')`. -/
def pad2 (n : ℕ) : String := if n < 10 then "0" ++ natStr n else natStr n

/-- Format `` `${year}-${month}-${day}` `` with zero-padded month and day:
the formatted body of `toLocalDateString`. -/
def formatCivil : ℤ × ℕ × ℕ → String
  | (y, m, d) => natStr y.toNat ++ "-" ++ pad2 m ++ "-" ++ pad2 d

/-- The `toLocalDateString` (streaks.ts): local-timezone
`YYYY-MM-DD` key of an instant. -/
def toLocalDateString (tz t : ℤ) : String :=
  formatCivil (civilFromDays (localDayOf tz t))

/-! ### Streaks -/

/-- The `StreakData` output record. -/
structure StreakData where
  currentStreak : ℕ
  longestStreak : ℕ
  totalWorkouts : ℕ
deriving DecidableEq

/-- The `getWorkoutDays` (streaks.ts) at the day-number level: the set of
local date keys of `ended_at` over sessions that have one. -/
def getWorkoutDaysK (tz : ℤ) (sessions : List NestedWorkoutSession) :
    Finset ℤ :=
  ((sessions.filterMap (·.ended_at)).map (localDayOf tz)).toFinset

/-- The `getWorkoutDays` at the string level (the set the source actually
builds). -/
def getWorkoutDaysS (tz : ℤ) (sessions : List NestedWorkoutSession) :
    Finset String :=
  ((sessions.filterMap (·.ended_at)).map (toLocalDateString tz)).toFinset

/-- The `while (true)` walk of `calculateStreaks`: starting from instant
`inst` (a parsed date key, i.e. UTC midnight of that key), count
consecutive hits of the *local* day key of the instant in the workout-day
set, stepping back one civil day (`setDate(getDate() - 1)`) per
iteration.  The JS loop stops at the first miss; the checked keys
strictly decrease, so `s.card + 1` iterations of this fuel-indexed
version reproduce the loop exactly. -/
def streakWalk (s : Finset ℤ) (tz : ℤ) : ℕ → ℤ → ℕ
  | 0, _ => 0
  | fuel + 1, inst =>
    if localDayOf tz inst ∈ s then streakWalk s tz fuel (inst - dayMs) + 1
    else 0

/-- One step of the longest-streak scan over the sorted keys
(state: `longestStreak`, `tempStreak`, `prevDate`); the source's
`dayDiff = Math.floor((cur - prev) / 86400000)` is exactly `d - p`
because parsed keys are UTC midnights. -/
def longestFoldStep : ℕ × ℕ × Option ℤ → ℤ → ℕ × ℕ × Option ℤ
  | (longest, temp, prev), d =>
    match prev with
    | none => (longest, 1, some d)
    | some p =>
      if d - p = 1 then (longest, temp + 1, some d)
      else (max longest temp, 1, some d)

/-- The longest-streak scan of `calculateStreaks`: fold over the
ascending keys, then `max(longestStreak, tempStreak)`. -/
def longestFold (l : List ℤ) : ℕ :=
  let st := l.foldl longestFoldStep (0, 0, none)
  max st.1 st.2.1

/-- The `calculateStreaks` (streaks.ts) in the day-number model.
`new Date(dateKey)` parses a `YYYY-MM-DD` key as *UTC midnight*, instant
`key * dayMs`; `setDate(getDate() - 1)` subtracts one civil day. -/
def calculateStreaksK (tz now : ℤ) (sessions : List NestedWorkoutSession) :
    StreakData :=
  let workoutDays := getWorkoutDaysK tz sessions
  if workoutDays = ∅ then ⟨0, 0, 0⟩
  else
    let sortedDates := workoutDays.sort (· ≤ ·)
    let today := localDayOf tz now
    let foundToday := today ∈ workoutDays
    -- `yesterday = new Date(today-key); yesterday.setDate(getDate()-1)`,
    -- then `toLocalDateString(yesterday.toISOString())`:
    let yesterdayKey := localDayOf tz (today * dayMs - dayMs)
    let foundYesterday := yesterdayKey ∈ workoutDays
    let currentStreak :=
      if foundToday ∨ foundYesterday then
        streakWalk workoutDays tz (workoutDays.card + 1)
          ((if foundToday then today else yesterdayKey) * dayMs)
      else 0
    let longestStreak := longestFold sortedDates
    ⟨currentStreak, max longestStreak currentStreak,
      (sessions.filter fun s => isCompleted s).length⟩

/-- The `AllTimeStats` output record. -/
structure AllTimeStats where
  totalWorkouts : ℕ
  totalSets : ℕ
  totalReps : ℚ
  totalVolume : ℤ
  totalDuration : ℤ
  avgDuration : ℚ
  avgSetsPerWorkout : ℚ
  avgVolumePerWorkout : ℤ
  avgRepsPerSet : ℚ
  avgRir : Option ℚ
deriving DecidableEq

/-- The `sessions.filter(s => s.ended_at)`. -/
def completedOf (sessions : List NestedWorkoutSession) :
    List NestedWorkoutSession :=
  sessions.filter fun s => isCompleted s

/-- Every set of every exercise of every completed session, in traversal
order. -/
def allSetsOf (sessions : List NestedWorkoutSession) : List WorkoutSet :=
  (completedOf sessions).flatMap sessionSets

/-- The non-null `rir` values among the sets of completed sessions. -/
def rirListOf (sessions : List NestedWorkoutSession) : List ℚ :=
  (allSetsOf sessions).filterMap (·.rir)

/-- The `computeAllTimeStats` (statistics.ts): filter to completed sessions,
accumulate set count / reps / volume / duration / RIR, derive guarded
averages, round for output. -/
def computeAllTimeStats (sessions : List NestedWorkoutSession) : AllTimeStats :=
  let totalSets := (allSetsOf sessions).length
  let totalReps := ((allSetsOf sessions).map (·.reps)).sum
  let totalVolume := ((allSetsOf sessions).map setVolume).sum
  let totalDuration := ((completedOf sessions).map
    (fun s => s.total_duration_sec.getD 0)).sum
  let totalRirCount := (rirListOf sessions).length
  let totalRirSum := (rirListOf sessions).sum
  let totalWorkouts := (completedOf sessions).length
  let avgDuration : ℚ :=
    if totalWorkouts > 0 then totalDuration / totalWorkouts / 60 else 0
  let avgSetsPerWorkout : ℚ :=
    if totalWorkouts > 0 then (totalSets : ℚ) / totalWorkouts else 0
  let avgVolumePerWorkout : ℚ :=
    if totalWorkouts > 0 then totalVolume / totalWorkouts else 0
  let avgRepsPerSet : ℚ := if totalSets > 0 then totalReps / totalSets else 0
  let avgRir : Option ℚ :=
    if totalRirCount > 0 then some (totalRirSum / totalRirCount) else none
  { totalWorkouts := totalWorkouts
    totalSets := totalSets
    totalReps := totalReps
    totalVolume := jsRound totalVolume
    totalDuration := jsRound (totalDuration / 60)
    avgDuration := round1 avgDuration
    avgSetsPerWorkout := round1 avgSetsPerWorkout
    avgVolumePerWorkout := jsRound avgVolumePerWorkout
    avgRepsPerSet := round1 avgRepsPerSet
    avgRir := avgRir.map round1 }

/-- C8: `computeAllTimeStats` on the empty session list returns all-zero
numeric fields and `avgRir = none`; more generally a zero workout count
forces `avgDuration`, `avgSetsPerWorkout` and `avgVolumePerWorkout` to 0,
a zero set count forces `avgRepsPerSet` to 0 (no division-by-zero
failure), and `avgRir` is `none` whenever no set of a completed session
carries a non-null `rir`. -/
theorem C8_computeAllTimeStats_empty_and_guards :
    computeAllTimeStats [] = ⟨0, 0, 0, 0, 0, 0, 0, 0, 0, none⟩ ∧
    ∀ sessions : List NestedWorkoutSession,
      ((computeAllTimeStats sessions).totalWorkouts = 0 →
        (computeAllTimeStats sessions).avgDuration = 0 ∧
        (computeAllTimeStats sessions).avgSetsPerWorkout = 0 ∧
        (computeAllTimeStats sessions).avgVolumePerWorkout = 0) ∧
      ((computeAllTimeStats sessions).totalSets = 0 →
        (computeAllTimeStats sessions).avgRepsPerSet = 0) ∧
      ((∀ s ∈ sessions, isCompleted s = true →
          ∀ st ∈ sessionSets s, st.rir = none) →
        (computeAllTimeStats sessions).avgRir = none) := by
  refine ⟨by simp [computeAllTimeStats, completedOf, allSetsOf, rirListOf],
    fun sessions => ⟨?_, ?_, ?_⟩⟩
  · intro h
    simp only [computeAllTimeStats] at h ⊢
    simp only [List.length_eq_zero] at h
    simp [h]
  · intro h
    simp only [computeAllTimeStats] at h ⊢
    simp only [List.length_eq_zero] at h
    simp [h]
  · intro h
    have hnil : rirListOf sessions = [] := by
      rw [rirListOf, List.filterMap_eq_nil_iff]
      intro st hst
      rw [allSetsOf, List.mem_flatMap] at hst
      obtain ⟨s, hs, hsts⟩ := hst
      rw [completedOf, List.mem_filter] at hs
      exact h s hs.1 hs.2 st hsts
    simp [computeAllTimeStats, hnil]

/-- Witness for C8: the guard hypotheses hold at the empty session list. -/
theorem C8_computeAllTimeStats_empty_and_guards_witness :
    (computeAllTimeStats []).avgDuration = 0 ∧
    (computeAllTimeStats []).avgRepsPerSet = 0 ∧
    (computeAllTimeStats []).avgRir = none :=
  ⟨((C8_computeAllTimeStats_empty_and_guards.2 []).1
      (by simp [computeAllTimeStats, completedOf])).1,
   (C8_computeAllTimeStats_empty_and_guards.2 []).2.1
      (by simp [computeAllTimeStats, allSetsOf, completedOf]),
   (C8_computeAllTimeStats_empty_and_guards.2 []).2.2 (by simp)⟩

/-! ### C3: the current-streak walk in negative-offset timezones -/

/-- C3 (code bug): `calculateStreaks` parses date keys with
`new Date('YYYY-MM-DD')`, i.e. as *UTC midnight*; in a timezone west of
UTC the key → `Date` → key round-trip lands one day earlier, so the
"yesterday" probe actually tests the day before yesterday and the
backward walk tests shifted keys.  Concretely at UTC−5
(`tz = -18000000`): `now` = 1970-01-01 12:00 UTC is local day 0, a
single session ended 1969-12-31 12:00 UTC is local day −1 (yesterday),
the workout-day set is `{−1}` = `{today − 1}`, yet `currentStreak = 0`
where the claim requires 1. -/
theorem C3_currentStreak_negative_offset_bug :
    localDayOf (-18000000) 43200000 = 0 ∧
    getWorkoutDaysK (-18000000)
      [⟨-43300000, some (-43200000), none, none, none⟩] = {-1} ∧
    (calculateStreaksK (-18000000) 43200000
      [⟨-43300000, some (-43200000), none, none, none⟩]).currentStreak = 0 := by
  decide

/-! ### C4: the longest streak -/

/-- Claim-side notion for C4: the length of the maximal run of
calendar-adjacent days of `s` ending at `d`, i.e. the greatest `n` with
`d, d−1, …, d−n+1 ∈ s` (0 if `d ∉ s`). -/
def chainLen (s : Finset ℤ) (d : ℤ) : ℕ :=
  Nat.findGreatest (fun n => ∀ i < n, d - (i : ℤ) ∈ s) s.card

/-- Claim-side notion for C4: the length of the longest run of
calendar-adjacent days anywhere in `s`. -/
def maxChain (s : Finset ℤ) : ℕ := s.sup (chainLen s)

theorem chain_le_card {s : Finset ℤ} {d : ℤ} {n : ℕ}
    (h : ∀ i < n, d - (i : ℤ) ∈ s) : n ≤ s.card := by
  have hsub : (Finset.range n).image (fun i : ℕ => d - (i : ℤ)) ⊆ s := by
    intro x hx
    rw [Finset.mem_image] at hx
    obtain ⟨i, hi, rfl⟩ := hx
    exact h i (Finset.mem_range.mp hi)
  have hinj : Set.InjOn (fun i : ℕ => d - (i : ℤ)) (Finset.range n) := by
    intro a _ b _ hab
    simp only at hab
    omega
  calc n = ((Finset.range n).image fun i : ℕ => d - (i : ℤ)).card := by
        rw [Finset.card_image_of_injOn hinj, Finset.card_range]
    _ ≤ s.card := Finset.card_le_card hsub

theorem chainLen_spec {s : Finset ℤ} {d : ℤ} :
    ∀ i < chainLen s d, d - (i : ℤ) ∈ s :=
  Nat.findGreatest_spec (P := fun n => ∀ i < n, d - (i : ℤ) ∈ s)
    (n := s.card) (Nat.zero_le _) (fun i hi => absurd hi (Nat.not_lt_zero i))

theorem chainLen_miss {s : Finset ℤ} {d : ℤ} :
    d - (chainLen s d : ℤ) ∉ s := by
  intro hmem
  have hP : ∀ i < chainLen s d + 1, d - (i : ℤ) ∈ s := by
    intro i hi
    rcases Nat.lt_or_ge i (chainLen s d) with h | h
    · exact chainLen_spec i h
    · have : i = chainLen s d := by omega
      subst this; exact hmem
  exact Nat.findGreatest_is_greatest (Nat.lt_succ_self _) (chain_le_card hP) hP

theorem chainLen_unique {s : Finset ℤ} {d : ℤ} {n : ℕ}
    (h1 : ∀ i < n, d - (i : ℤ) ∈ s) (h2 : d - (n : ℤ) ∉ s) :
    chainLen s d = n := by
  rcases Nat.lt_trichotomy (chainLen s d) n with h | h | h
  · exact absurd (h1 _ h) chainLen_miss
  · exact h
  · exact absurd (chainLen_spec _ h) h2

theorem chainLen_insert_of_lt {s : Finset ℤ} {d x : ℤ} (hlt : x < d) :
    chainLen (insert d s) x = chainLen s x := by
  refine chainLen_unique (fun i hi => ?_) (fun hmem => ?_)
  · exact Finset.mem_insert_of_mem (chainLen_spec i hi)
  · rw [Finset.mem_insert] at hmem
    rcases hmem with h | h
    · omega
    · exact chainLen_miss h

theorem localDayOf_key (tz k : ℤ) :
    localDayOf tz (k * dayMs) = tz.fdiv dayMs + k := by
  rw [localDayOf, Int.fdiv_eq_ediv _ (by norm_num [dayMs]),
    Int.fdiv_eq_ediv _ (by norm_num [dayMs]), Int.add_comm,
    Int.add_mul_ediv_right _ _ (show dayMs ≠ 0 by norm_num [dayMs])]

theorem streakWalk_eq {s : Finset ℤ} {tz : ℤ} :
    ∀ (n fuel : ℕ) (k : ℤ), (∀ i < n, tz.fdiv dayMs + k - (i : ℤ) ∈ s) →
      tz.fdiv dayMs + k - (n : ℤ) ∉ s → n < fuel →
      streakWalk s tz fuel (k * dayMs) = n := by
  intro n
  induction n with
  | zero =>
    intro fuel k _ h2 hf
    match fuel, hf with
    | fuel + 1, _ =>
      rw [streakWalk, localDayOf_key, if_neg (by simpa using h2)]
  | succ m ih =>
    intro fuel k h1 h2 hf
    match fuel, hf with
    | fuel + 1, _ =>
      have h1' : ∀ i < m, tz.fdiv dayMs + (k - 1) - (i : ℤ) ∈ s := by
        intro i hi
        rw [show tz.fdiv dayMs + (k - 1) - (i : ℤ) =
            tz.fdiv dayMs + k - ((i + 1 : ℕ) : ℤ) by push_cast; ring]
        exact h1 (i + 1) (by omega)
      have h2' : tz.fdiv dayMs + (k - 1) - (m : ℤ) ∉ s := by
        rw [show tz.fdiv dayMs + (k - 1) - (m : ℤ) =
            tz.fdiv dayMs + k - ((m + 1 : ℕ) : ℤ) by push_cast; ring]
        exact h2
      rw [streakWalk, localDayOf_key,
        if_pos (by simpa using h1 0 (Nat.succ_pos m)),
        show k * dayMs - dayMs = (k - 1) * dayMs by ring,
        ih fuel (k - 1) h1' h2' (by omega)]

theorem streakWalk_chainLen {s : Finset ℤ} {tz k : ℤ} :
    streakWalk s tz (s.card + 1) (k * dayMs) =
      chainLen s (tz.fdiv dayMs + k) :=
  streakWalk_eq _ _ _ (fun i hi => chainLen_spec i hi) chainLen_miss
    (Nat.lt_succ_of_le (Nat.findGreatest_le _))

theorem longestFold_aux :
    ∀ (l : List ℤ) (d : ℤ), ((l ++ [d]).Sorted (· < ·)) →
      ((l ++ [d]).foldl longestFoldStep (0, 0, none)).2.2 = some d ∧
      ((l ++ [d]).foldl longestFoldStep (0, 0, none)).2.1 =
        chainLen (l ++ [d]).toFinset d ∧
      max ((l ++ [d]).foldl longestFoldStep (0, 0, none)).1
          ((l ++ [d]).foldl longestFoldStep (0, 0, none)).2.1 =
        maxChain (l ++ [d]).toFinset := by
  intro l
  induction l using List.reverseRecOn with
  | nil =>
    intro d _
    have hchain : chainLen ({d} : Finset ℤ) d = 1 := by
      refine chainLen_unique (fun i hi => ?_) (fun hmem => ?_)
      · have : i = 0 := by omega
        subst this; simp
      · rw [Finset.mem_singleton] at hmem; omega
    refine ⟨rfl, ?_, ?_⟩
    · simpa [longestFoldStep] using hchain.symm
    · simp [longestFoldStep, maxChain, hchain]
  | append_singleton xs p ih =>
    intro d hs
    have hsorted' : (xs ++ [p]).Sorted (· < ·) :=
      hs.sublist (List.sublist_append_left _ _)
    have hlt : ∀ x ∈ xs ++ [p], x < d := by
      have := (List.pairwise_append.mp hs).2.2
      intro x hx
      exact this x hx d (List.mem_singleton_self d)
    have hle : ∀ x ∈ (xs ++ [p]).toFinset, x ≤ p := by
      intro x hx
      rw [List.mem_toFinset] at hx
      rcases List.mem_append.mp hx with h | h
      · have := (List.pairwise_append.mp hsorted').2.2
        exact le_of_lt (this x h p (List.mem_singleton_self p))
      · rw [List.mem_singleton] at h; omega
    have hpd : p < d := hlt p (by simp)
    obtain ⟨hprev, htemp, hmax⟩ := ih p hsorted'
    have hS : ((xs ++ [p]) ++ [d]).toFinset =
        insert d (xs ++ [p]).toFinset := by
      ext x
      simp only [List.toFinset_append, List.toFinset_cons, List.toFinset_nil,
        Finset.mem_union, Finset.mem_insert, Finset.mem_singleton]
      tauto
    have hcongr : ∀ x ∈ (xs ++ [p]).toFinset,
        chainLen (insert d (xs ++ [p]).toFinset) x =
          chainLen (xs ++ [p]).toFinset x := by
      intro x hx
      exact chainLen_insert_of_lt (lt_of_le_of_lt (hle x hx) hpd)
    have hsup : maxChain (insert d (xs ++ [p]).toFinset) =
        max (chainLen (insert d (xs ++ [p]).toFinset) d)
          (maxChain (xs ++ [p]).toFinset) := by
      rw [maxChain, Finset.sup_insert, maxChain,
        Finset.sup_congr rfl hcongr]
    rw [List.foldl_append]
    simp only [List.foldl_cons, List.foldl_nil]
    rcases hF : (xs ++ [p]).foldl longestFoldStep (0, 0, none)
      with ⟨L, T, prev⟩
    rw [hF] at hprev htemp hmax
    simp only at hprev htemp hmax
    subst hprev
    have hT : T = chainLen (xs ++ [p]).toFinset p := htemp
    by_cases hdp : d - p = 1
    · have hchain : chainLen (insert d (xs ++ [p]).toFinset) d = T + 1 := by
        rw [hT]
        refine chainLen_unique (fun i hi => ?_) (fun hmem => ?_)
        · match i with
          | 0 => simp
          | j + 1 =>
            refine Finset.mem_insert_of_mem ?_
            rw [show d - ((j + 1 : ℕ) : ℤ) = p - (j : ℤ) by push_cast; omega]
            exact chainLen_spec j (by omega)
        · rcases Finset.mem_insert.mp hmem with h | h
          · omega
          · rw [show d - ((chainLen (xs ++ [p]).toFinset p + 1 : ℕ) : ℤ) =
                p - ((chainLen (xs ++ [p]).toFinset p : ℕ) : ℤ) by
                  push_cast; omega] at h
            exact chainLen_miss h
      simp only [longestFoldStep, if_pos hdp]
      refine ⟨trivial, ?_, ?_⟩
      · rw [hS, hchain]
      · rw [hS, hsup, hchain, ← hmax]
        omega
    · have hd1 : d - 1 ∉ (xs ++ [p]).toFinset := by
        intro hmem
        have := hle _ hmem
        omega
      have hchain : chainLen (insert d (xs ++ [p]).toFinset) d = 1 := by
        refine chainLen_unique (fun i hi => ?_) (fun hmem => ?_)
        · have : i = 0 := by omega
          subst this
          simp
        · rcases Finset.mem_insert.mp hmem with h | h
          · omega
          · exact hd1 (by simpa using h)
      simp only [longestFoldStep, if_neg hdp]
      refine ⟨trivial, ?_, ?_⟩
      · rw [hS, hchain]
      · rw [hS, hsup, hchain, ← hmax]
        omega

theorem longestFold_eq_maxChain (s : Finset ℤ) (hs : s ≠ ∅) :
    longestFold (s.sort (· ≤ ·)) = maxChain s := by
  rcases (s.sort (· ≤ ·)).eq_nil_or_concat with h | ⟨l, d, h⟩
  · exfalso
    apply hs
    rw [← Finset.card_eq_zero, ← Finset.length_sort (· ≤ ·), h]
    rfl
  · rw [List.concat_eq_append] at h
    have hsort : (s.sort (· ≤ ·)).Sorted (· < ·) := Finset.sort_sorted_lt s
    rw [h] at hsort
    obtain ⟨_, _, hmax⟩ := longestFold_aux l d hsort
    rw [longestFold, h, hmax, ← h, Finset.sort_toFinset]

/-- C4: on a non-empty workout-day set, `longestStreak` equals the
maximum of (a) the length of the longest run of calendar-adjacent date
keys in the set (what the ascending scan with gap-reset computes) and
(b) the returned `currentStreak`; and in every result
`currentStreak ≤ longestStreak`. -/
theorem C4_longestStreak_eq_max (tz now : ℤ)
    (sessions : List NestedWorkoutSession) :
    (getWorkoutDaysK tz sessions ≠ ∅ →
      (calculateStreaksK tz now sessions).longestStreak =
        max (maxChain (getWorkoutDaysK tz sessions))
          (calculateStreaksK tz now sessions).currentStreak) ∧
    (calculateStreaksK tz now sessions).currentStreak ≤
      (calculateStreaksK tz now sessions).longestStreak := by
  by_cases h : getWorkoutDaysK tz sessions = ∅
  · exact ⟨fun h' => absurd h h', by simp [calculateStreaksK, h]⟩
  · have hfold := longestFold_eq_maxChain _ h
    constructor
    · intro _
      simp only [calculateStreaksK, if_neg h]
      rw [hfold]
    · simp only [calculateStreaksK, if_neg h]
      exact le_max_right _ _

/-- Witness for C4: a concrete non-empty workout-day set. -/
theorem C4_longestStreak_eq_max_witness :
    (calculateStreaksK 0 0 [⟨-1000, some 0, none, none, none⟩]).longestStreak =
      max (maxChain (getWorkoutDaysK 0 [⟨-1000, some 0, none, none, none⟩]))
        (calculateStreaksK 0 0
          [⟨-1000, some 0, none, none, none⟩]).currentStreak :=
  (C4_longestStreak_eq_max 0 0 [⟨-1000, some 0, none, none, none⟩]).1
    (by decide)

/-! ### C9: toLocalDateString collapses same-local-day instants -/

/-- C9: `toLocalDateString` is a function of the local civil day alone,
so any two instants on the same local calendar day get the same
`YYYY-MM-DD` key, and `getWorkoutDays` collapses two completed sessions
ended on the same local day (even hours apart) into one entry. -/
theorem C9_toLocalDateString_same_local_day (tz t1 t2 : ℤ)
    (h : localDayOf tz t1 = localDayOf tz t2)
    (s1 s2 : NestedWorkoutSession)
    (h1 : s1.ended_at = some t1) (h2 : s2.ended_at = some t2) :
    toLocalDateString tz t1 = toLocalDateString tz t2 ∧
    getWorkoutDaysS tz [s1, s2] = {toLocalDateString tz t1} := by
  have hk : toLocalDateString tz t1 = toLocalDateString tz t2 := by
    rw [toLocalDateString, toLocalDateString, h]
  refine ⟨hk, ?_⟩
  rw [getWorkoutDaysS]
  simp only [List.filterMap_cons, List.filterMap_nil, h1, h2, List.map_cons,
    List.map_nil, List.toFinset_cons, List.toFinset_nil]
  rw [← hk]
  simp

/-- Witness for C9: 2024-03-01T23:00Z and 2024-03-02T01:00Z, both on
local day 2024-03-02 in a UTC+2 zone, yield one key and one workout day. -/
theorem C9_toLocalDateString_same_local_day_witness :
    toLocalDateString 7200000 1709334000000 =
      toLocalDateString 7200000 1709341200000 ∧
    getWorkoutDaysS 7200000
      [⟨1709330000000, some 1709334000000, none, none, none⟩,
       ⟨1709340000000, some 1709341200000, none, none, none⟩] =
      {toLocalDateString 7200000 1709334000000} :=
  C9_toLocalDateString_same_local_day 7200000 1709334000000 1709341200000
    (by decide)
    ⟨1709330000000, some 1709334000000, none, none, none⟩
    ⟨1709340000000, some 1709341200000, none, none, none⟩ rfl rfl

/-! ### C10: getWorkoutDatesForMonth and the zero-based month argument -/

/-- JS `String.prototype.startsWith`. -/
def jsStartsWith (s pre : String) : Bool := pre.data.isPrefixOf s.data

/-- The `getWorkoutDatesForMonth` (streaks.ts): filter the deduplicated
workout-day keys by the string `` `${year}-${String(month+1).padStart(2,'0')}` ``
(the returned array is modelled by the set of kept keys). -/
def getWorkoutDatesForMonth (tz : ℤ) (year month : ℕ)
    (sessions : List NestedWorkoutSession) : Finset String :=
  (getWorkoutDaysS tz sessions).filter
    (fun date => jsStartsWith date (natStr year ++ "-" ++ pad2 (month + 1)))

theorem digitsRevAux_eq_digits :
    ∀ f n : ℕ, n ≤ f → digitsRevAux f n = Nat.digits 10 n := by
  intro f
  induction f with
  | zero =>
    intro n hn
    have : n = 0 := by omega
    subst this
    simp [digitsRevAux]
  | succ f ih =>
    intro n hn
    by_cases h0 : n = 0
    · subst h0; simp [digitsRevAux]
    · rw [digitsRevAux, if_neg h0, Nat.digits_def' (by norm_num) (by omega),
        ih (n / 10) (by omega)]

theorem natStr_data {n : ℕ} (h : n ≠ 0) :
    (natStr n).data = (Nat.digits 10 n).reverse.map Nat.digitChar := by
  rw [natStr, if_neg h, digitsRevAux_eq_digits n n le_rfl]

theorem natStr_data_len4 {n : ℕ} (h1 : 1000 ≤ n) (h2 : n ≤ 9999) :
    (natStr n).data.length = 4 := by
  rw [natStr_data (by omega), List.length_map, List.length_reverse,
    Nat.digits_len 10 n (by norm_num) (by omega),
    Nat.log_eq_of_pow_le_of_lt_pow (m := 3) (by norm_num; omega)
      (by norm_num; omega)]

theorem natStr_data_len1 {n : ℕ} (h2 : n ≤ 9) :
    (natStr n).data.length = 1 := by
  by_cases h0 : n = 0
  · subst h0; rfl
  · rw [natStr_data h0, List.length_map, List.length_reverse,
      Nat.digits_len 10 n (by norm_num) (by omega),
      Nat.log_eq_of_pow_le_of_lt_pow (m := 0) (by norm_num; omega)
        (by norm_num; omega)]

theorem pad2_data_len {n : ℕ} (h : n ≤ 99) : (pad2 n).data.length = 2 := by
  rw [pad2]
  by_cases h10 : n < 10
  · rw [if_pos h10]
    have : ("0" ++ natStr n).data = '0' :: (natStr n).data := rfl
    rw [this, List.length_cons, natStr_data_len1 (by omega)]
  · rw [if_neg h10, natStr_data (by omega), List.length_map,
      List.length_reverse, Nat.digits_len 10 n (by norm_num) (by omega),
      Nat.log_eq_of_pow_le_of_lt_pow (m := 1) (by norm_num; omega)
        (by norm_num; omega)]

theorem map_digitChar_inj :
    ∀ l1 l2 : List ℕ, (∀ x ∈ l1, x < 10) → (∀ x ∈ l2, x < 10) →
      l1.map Nat.digitChar = l2.map Nat.digitChar → l1 = l2 := by
  intro l1
  induction l1 with
  | nil =>
    intro l2 _ _ h
    cases l2 with
    | nil => rfl
    | cons b t => simp at h
  | cons a t ih =>
    intro l2 h1 h2 h
    cases l2 with
    | nil => simp at h
    | cons b t2 =>
      simp only [List.map_cons, List.cons.injEq] at h
      have hab : a = b := by
        have ha : a < 10 := h1 a (by simp)
        have hb : b < 10 := h2 b (by simp)
        have key : ∀ x < 10, ∀ y < 10, Nat.digitChar x = Nat.digitChar y →
            x = y := by decide
        exact key a ha b hb h.1
      rw [hab, ih t2 (fun x hx => h1 x (by simp [hx]))
        (fun x hx => h2 x (by simp [hx])) h.2]

theorem natStr_inj {a b : ℕ} (ha : a ≠ 0) (hb : b ≠ 0)
    (h : (natStr a).data = (natStr b).data) : a = b := by
  rw [natStr_data ha, natStr_data hb] at h
  have hd : Nat.digits 10 a = Nat.digits 10 b := by
    have := map_digitChar_inj (Nat.digits 10 a).reverse
      (Nat.digits 10 b).reverse
      (fun x hx => Nat.digits_lt_base (by norm_num)
        (List.mem_reverse.mp hx))
      (fun x hx => Nat.digits_lt_base (by norm_num)
        (List.mem_reverse.mp hx)) h
    exact List.reverse_injective this
  calc a = Nat.ofDigits 10 (Nat.digits 10 a) := (Nat.ofDigits_digits 10 a).symm
    _ = Nat.ofDigits 10 (Nat.digits 10 b) := by rw [hd]
    _ = b := Nat.ofDigits_digits 10 b

theorem pad2_data_inj :
    ∀ a ≤ 12, ∀ b ≤ 12, (pad2 a).data = (pad2 b).data → a = b := by
  decide

/-- Two-block prefix decomposition: with `a, a'` of equal length and
`b, b'` of equal length, `a ++ h :: b` is a prefix of
`a' ++ h :: (b' ++ c)` iff the blocks agree. -/
theorem prefix_two_blocks {a a' b b' c : List Char} {h : Char}
    (ha : a.length = a'.length) (hb : b.length = b'.length) :
    (a ++ h :: b) <+: (a' ++ h :: (b' ++ c)) ↔ (a = a' ∧ b = b') := by
  constructor
  · rintro ⟨t, ht⟩
    rw [List.append_assoc, List.cons_append] at ht
    obtain ⟨rfl, ht2⟩ := List.append_inj ht ha
    injection ht2 with _ ht3
    obtain ⟨rfl, -⟩ := List.append_inj ht3 hb
    exact ⟨rfl, rfl⟩
  · rintro ⟨rfl, rfl⟩
    exact ⟨c, by simp⟩

/-- A rendered `YYYY-MM-DD` key starts with the rendered `YYYY-MM`
month string iff the year and (1-based) month numbers agree, provided the
components are in their Gregorian ranges and the years have four digits. -/
theorem key_startsWith_iff {y' : ℤ} {m' d' y m : ℕ}
    (hy'1 : 1000 ≤ y') (hy'2 : y' ≤ 9999)
    (hy1 : 1000 ≤ y) (hy2 : y ≤ 9999) (hm : m ≤ 11)
    (hm'1 : 1 ≤ m') (hm'2 : m' ≤ 12) (hd'1 : 1 ≤ d') (hd'2 : d' ≤ 31) :
    (jsStartsWith (formatCivil (y', m', d'))
      (natStr y ++ "-" ++ pad2 (m + 1)) = true) ↔
      (y' = (y : ℤ) ∧ m' = m + 1) := by
  have hfmt : (formatCivil (y', m', d')).data =
      (natStr y'.toNat).data ++
        '-' :: ((pad2 m').data ++ ('-' :: (pad2 d').data)) := by
    simp [formatCivil, String.data_append]
  have hpfx : (natStr y ++ "-" ++ pad2 (m + 1)).data =
      (natStr y).data ++ '-' :: (pad2 (m + 1)).data := by
    simp [String.data_append]
  have ha : (natStr y).data.length = (natStr y'.toNat).data.length := by
    rw [natStr_data_len4 hy1 hy2, natStr_data_len4 (by omega) (by omega)]
  have hb : (pad2 (m + 1)).data.length = (pad2 m').data.length := by
    rw [pad2_data_len (by omega), pad2_data_len (by omega)]
  rw [jsStartsWith, List.isPrefixOf_iff_prefix, hfmt, hpfx,
    prefix_two_blocks ha hb]
  constructor
  · rintro ⟨hA, hB⟩
    have hyy : y = y'.toNat := natStr_inj (by omega) (by omega) hA
    have hmm : m + 1 = m' := pad2_data_inj (m + 1) (by omega) m' hm'2 hB
    omega
  · rintro ⟨hy', hm'⟩
    have h1 : y'.toNat = y := by omega
    rw [h1, hm']
    exact ⟨rfl, rfl⟩

/-- C10: the `month` argument of `getWorkoutDatesForMonth` is
*zero-based*: a workout-day key is returned iff it is a workout day and
its local civil year is `y` and its 1-based month number is `m + 1`
(so January is selected by `m = 0`, and passing the conventional 1-based
number selects the following month).  The range hypotheses on the key's
civil components hold for every actual day number (they are the
Gregorian ranges) and for any four-digit year. -/
theorem C10_getWorkoutDatesForMonth_zero_based (tz : ℤ) (y m : ℕ)
    (sessions : List NestedWorkoutSession) (t : ℤ)
    (hy1 : 1000 ≤ y) (hy2 : y ≤ 9999) (hm : m ≤ 11)
    (hy'1 : 1000 ≤ (civilFromDays (localDayOf tz t)).1)
    (hy'2 : (civilFromDays (localDayOf tz t)).1 ≤ 9999)
    (hm'1 : 1 ≤ (civilFromDays (localDayOf tz t)).2.1)
    (hm'2 : (civilFromDays (localDayOf tz t)).2.1 ≤ 12)
    (hd'1 : 1 ≤ (civilFromDays (localDayOf tz t)).2.2)
    (hd'2 : (civilFromDays (localDayOf tz t)).2.2 ≤ 31) :
    toLocalDateString tz t ∈ getWorkoutDatesForMonth tz y m sessions ↔
      (toLocalDateString tz t ∈ getWorkoutDaysS tz sessions ∧
        (civilFromDays (localDayOf tz t)).1 = (y : ℤ) ∧
        (civilFromDays (localDayOf tz t)).2.1 = m + 1) := by
  rcases hc : civilFromDays (localDayOf tz t) with ⟨y', m', d'⟩
  rw [hc] at hy'1 hy'2 hm'1 hm'2 hd'1 hd'2
  simp only at hy'1 hy'2 hm'1 hm'2 hd'1 hd'2
  rw [getWorkoutDatesForMonth, Finset.mem_filter, toLocalDateString, hc]
  simp only
  rw [show ((jsStartsWith (formatCivil (y', m', d'))
        (natStr y ++ "-" ++ pad2 (m + 1)) : Bool) : Prop) ↔
      (jsStartsWith (formatCivil (y', m', d'))
        (natStr y ++ "-" ++ pad2 (m + 1)) = true) from Iff.rfl,
    key_startsWith_iff hy'1 hy'2 hy1 hy2 hm hm'1 hm'2 hd'1 hd'2]

/-- Witness for C10: 2024-03-01T00:00Z with `tz = 0`; its civil
components `(2024, 3, 1)` satisfy the range hypotheses, `y = 2024`,
`m = 2` selects March. -/
theorem C10_getWorkoutDatesForMonth_zero_based_witness :
    toLocalDateString 0 1709251200000 ∈
        getWorkoutDatesForMonth 0 2024 2 [] ↔
      (toLocalDateString 0 1709251200000 ∈ getWorkoutDaysS 0 [] ∧
        (civilFromDays (localDayOf 0 1709251200000)).1 = (2024 : ℤ) ∧
        (civilFromDays (localDayOf 0 1709251200000)).2.1 = 2 + 1) :=
  C10_getWorkoutDatesForMonth_zero_based 0 2024 2 [] 1709251200000
    (by norm_num) (by norm_num) (by norm_num)
    (by decide) (by decide) (by decide) (by decide) (by decide) (by decide)

/-! ### Period statistics (C6, C7) -/

/-- The `PeriodStats` output record. -/
structure PeriodStats where
  workouts : ℕ
  sets : ℕ
  reps : ℚ
  volume : ℤ
  duration : ℤ
deriving DecidableEq

/-- The session filter of `computePeriodStats`: completed
(`!s.ended_at → false`) and `started_at` in `[startDate, endDate)`. -/
def periodPred (startDate endDate : ℤ) (s : NestedWorkoutSession) : Bool :=
  isCompleted s && decide (startDate ≤ s.started_at) &&
    decide (s.started_at < endDate)

/-- The `computePeriodStats` (statistics.ts). -/
def computePeriodStats (sessions : List NestedWorkoutSession)
    (startDate endDate : ℤ) : PeriodStats :=
  let filtered := sessions.filter (periodPred startDate endDate)
  let allSets := filtered.flatMap sessionSets
  { workouts := filtered.length
    sets := allSets.length
    reps := (allSets.map (·.reps)).sum
    volume := jsRound ((allSets.map setVolume).sum)
    duration := jsRound (((filtered.map
      (fun s => s.total_duration_sec.getD 0)).sum) / 60) }

/-- The `calculateChange` (inside `computePeriodComparison`). -/
def calculateChange (current previous : ℚ) : ℤ :=
  if previous = 0 then (if current > 0 then 100 else 0)
  else jsRound ((current - previous) / previous * 100)

/-- The `PeriodComparison` output record (the `changes` object is flattened
into the three `changes*` fields). -/
structure PeriodComparison where
  current : PeriodStats
  previous : PeriodStats
  changesWorkouts : ℤ
  changesVolume : ℤ
  changesDuration : ℤ
deriving DecidableEq

/-- The `computePeriodComparison` (statistics.ts); under the fixed-offset
model `setDate(getDate() - k)` subtracts exactly `k * dayMs` ms. -/
def computePeriodComparison (now : ℤ) (sessions : List NestedWorkoutSession)
    (days : ℤ) : PeriodComparison :=
  let currentPeriodStart := now - days * dayMs
  let previousPeriodStart := now - days * 2 * dayMs
  let currentStats := computePeriodStats sessions currentPeriodStart now
  let previousStats :=
    computePeriodStats sessions previousPeriodStart currentPeriodStart
  { current := currentStats
    previous := previousStats
    changesWorkouts :=
      calculateChange currentStats.workouts previousStats.workouts
    changesVolume := calculateChange currentStats.volume previousStats.volume
    changesDuration :=
      calculateChange currentStats.duration previousStats.duration }

/-- Membership in a period, in the spec's words (for C7): completed
session, `startedAt` in the half-open interval `[start, end)`. -/
def inPeriodSpec (startDate endDate : ℤ) (s : NestedWorkoutSession) : Prop :=
  s.ended_at.isSome = true ∧ startDate ≤ s.started_at ∧
    s.started_at < endDate

instance (a b : ℤ) (s : NestedWorkoutSession) :
    Decidable (inPeriodSpec a b s) := by
  rw [inPeriodSpec]; infer_instance

/-- C7: `computePeriodStats` counts a session iff it is completed and its
`startedAt` (not `endedAt`) lies in `[start, end)` — in particular the
filter is insensitive to the particular non-null `endedAt` value — and
`computePeriodComparison` compares the windows `[now − days·day, now)`
and `[now − 2·days·day, now − days·day)`. -/
theorem C7_period_membership_and_windows (sessions : List NestedWorkoutSession)
    (startDate endDate now days : ℤ) :
    (∀ s, periodPred startDate endDate s = true ↔
      inPeriodSpec startDate endDate s) ∧
    ((computePeriodStats sessions startDate endDate).workouts =
      (sessions.filter fun s =>
        decide (inPeriodSpec startDate endDate s)).length) ∧
    (∀ (s : NestedWorkoutSession) (t t' : ℤ),
      periodPred startDate endDate { s with ended_at := some t } =
        periodPred startDate endDate { s with ended_at := some t' }) ∧
    (computePeriodComparison now sessions days).current =
      computePeriodStats sessions (now - days * dayMs) now ∧
    (computePeriodComparison now sessions days).previous =
      computePeriodStats sessions (now - 2 * days * dayMs)
        (now - days * dayMs) := by
  have hiff : ∀ s, periodPred startDate endDate s = true ↔
      inPeriodSpec startDate endDate s := by
    intro s
    rw [periodPred, inPeriodSpec, isCompleted]
    simp [Bool.and_eq_true, and_assoc]
  refine ⟨hiff, ?_, ?_, rfl, ?_⟩
  · rw [computePeriodStats]
    simp only
    congr 1
    apply List.filter_congr
    intro s _
    have hpe : inPeriodSpec startDate endDate s =
        (periodPred startDate endDate s = true) := (propext (hiff s)).symm
    simp only [hpe]
    simp
  · intro s t t'
    rw [periodPred, periodPred]
    rfl
  · rw [computePeriodComparison]
    simp only
    rw [show now - days * 2 * dayMs = now - 2 * days * dayMs by ring]

/-- C6: every percent change in `computePeriodComparison` is
`calculateChange` of the corresponding current/previous metrics, where
`calculateChange cur prev` is `round(((cur − prev) / prev) · 100)` for
`prev ≠ 0`, and for `prev = 0` it is 100 if `cur > 0` and 0 if `cur = 0`;
in particular `previous.volume = 0` with `current.volume = 500` gives
`changes.volume = 100`, and both zero give 0. -/
theorem C6_percent_changes (now days : ℤ)
    (sessions : List NestedWorkoutSession) :
    ((computePeriodComparison now sessions days).changesWorkouts =
      calculateChange
        ((computePeriodComparison now sessions days).current.workouts)
        ((computePeriodComparison now sessions days).previous.workouts)) ∧
    ((computePeriodComparison now sessions days).changesVolume =
      calculateChange
        ((computePeriodComparison now sessions days).current.volume)
        ((computePeriodComparison now sessions days).previous.volume)) ∧
    ((computePeriodComparison now sessions days).changesDuration =
      calculateChange
        ((computePeriodComparison now sessions days).current.duration)
        ((computePeriodComparison now sessions days).previous.duration)) ∧
    (∀ cur prev : ℚ, prev ≠ 0 →
      calculateChange cur prev = jsRound ((cur - prev) / prev * 100)) ∧
    (∀ cur : ℚ, 0 < cur → calculateChange cur 0 = 100) ∧
    (calculateChange 500 0 = 100 ∧ calculateChange 0 0 = 0) ∧
    (∀ sessions' : List NestedWorkoutSession,
      (computePeriodComparison now sessions' days).previous.volume = 0 →
      (computePeriodComparison now sessions' days).current.volume = 500 →
      (computePeriodComparison now sessions' days).changesVolume = 100) := by
  refine ⟨rfl, rfl, rfl, ?_, ?_, ⟨?_, ?_⟩, ?_⟩
  · intro cur prev h
    rw [calculateChange, if_neg h]
  · intro cur h
    rw [calculateChange, if_pos rfl, if_pos h]
  · rw [calculateChange, if_pos rfl, if_pos (by norm_num)]
  · rw [calculateChange, if_pos rfl, if_neg (by norm_num)]
  · intro sessions' hprev hcur
    show calculateChange
        ((computePeriodComparison now sessions' days).current.volume)
        ((computePeriodComparison now sessions' days).previous.volume) = 100
    rw [hprev, hcur]
    rw [calculateChange]
    norm_num

theorem jsRound_natCast (n : ℕ) : jsRound (n : ℚ) = n := by
  have := jsRound_intCast (n : ℤ)
  push_cast at this
  exact_mod_cast this

/-- Witness for C6: one completed session with a 50 kg × 10 set started
inside the current window and nothing in the previous window:
`previous.volume = 0`, `current.volume = 500`, `changes.volume = 100`;
plus a nonzero-previous instance. -/
theorem C6_percent_changes_witness :
    (computePeriodComparison 0
      [⟨-1000, some 1, none, none,
        some [⟨"x", some [⟨10, some 50, none, 0⟩]⟩]⟩] 7).changesVolume
      = 100 ∧
    calculateChange 200 100 = jsRound ((200 - 100) / 100 * 100) ∧
    calculateChange 500 0 = 100 := by
  have h := C6_percent_changes 0 7
    [⟨-1000, some 1, none, none, some [⟨"x", some [⟨10, some 50, none, 0⟩]⟩]⟩]
  refine ⟨h.2.2.2.2.2.2 _ ?_ ?_, h.2.2.2.1 200 100 (by norm_num),
    h.2.2.2.2.1 500 (by norm_num)⟩
  · simp [computePeriodComparison, computePeriodStats, periodPred,
      isCompleted, dayMs, sessionSets, exercisesOf, setsOf, setVolume]
  · simp [computePeriodComparison, computePeriodStats, periodPred,
      isCompleted, dayMs, sessionSets, exercisesOf, setsOf, setVolume]
    rw [jsRound_eq, Int.floor_eq_iff]
    norm_num

/-! ### Personal records (C1) -/

/-- The per-exercise accumulator of `computePersonalRecords`. -/
structure RecAcc where
  maxWeight : ℚ
  maxReps : ℚ
  maxVolume : ℚ
  achievedAt : ℤ
deriving DecidableEq

/-- The `PersonalRecord` output record. -/
structure PersonalRecord where
  exerciseName : String
  maxWeight : ℚ
  maxReps : ℚ
  maxVolume : ℚ
  achievedAt : ℤ
deriving DecidableEq

/-- JS `Map.get` on an insertion-ordered association list. -/
def mapGet {α : Type} (m : List (String × α)) (k : String) : Option α :=
  (m.find? (fun e => e.1 == k)).map (·.2)

/-- JS `Map.set`: update the existing entry in place, else append. -/
def mapSet {α : Type} (m : List (String × α)) (k : String) (v : α) :
    List (String × α) :=
  if m.any (fun e => e.1 == k) then
    m.map (fun e => if e.1 == k then (k, v) else e)
  else m ++ [(k, v)]

/-- One `workout_sets.forEach` body of `computePersonalRecords`.  Note
the two `else`-branch updates both spread the *old* `existing`, exactly
as the source does. -/
def prStep (exerciseName : String) (m : List (String × RecAcc))
    (st : WorkoutSet) : List (String × RecAcc) :=
  let weight := st.weight.getD 0
  let reps := st.reps
  let volume := weight * reps
  match mapGet m exerciseName with
  | none => mapSet m exerciseName ⟨weight, reps, volume, st.completed_at⟩
  | some existing =>
    if volume > existing.maxVolume then
      mapSet m exerciseName ⟨weight, reps, volume, st.completed_at⟩
    else
      let m1 := if weight > existing.maxWeight then
        mapSet m exerciseName { existing with maxWeight := weight } else m
      if reps > existing.maxReps then
        mapSet m1 exerciseName { existing with maxReps := reps } else m1

/-- The `exerciseRecords` map built by `computePersonalRecords`'s
triple `forEach` (skipping sessions without `ended_at`). -/
def prFold (sessions : List NestedWorkoutSession) : List (String × RecAcc) :=
  sessions.foldl (fun m session =>
    if isCompleted session then
      (exercisesOf session).foldl (fun m exercise =>
        (setsOf exercise).foldl (prStep exercise.name) m) m
    else m) []

/-- The `computePersonalRecords` (statistics.ts): map entries, sort
descending by `maxVolume` (stable), truncate to `limit`. -/
def computePersonalRecords (sessions : List NestedWorkoutSession)
    (limit : ℕ) : List PersonalRecord :=
  (((prFold sessions).map (fun e =>
      PersonalRecord.mk e.1 e.2.maxWeight e.2.maxReps e.2.maxVolume
        e.2.achievedAt)).mergeSort
    (fun a b => decide (b.maxVolume ≤ a.maxVolume))).take limit

/-- C1 (counterexample): one exercise `"bench"` with a 100 kg × 1 set
(volume 100) followed by a 50 kg × 10 set (volume 500).  The
higher-volume set *replaces* the whole record, so the returned
`maxWeight` is 50 even though a 100 kg set was logged — `maxWeight` is
not the maximum weight over all sets, contradicting the claim. -/
theorem C1_personalRecords_counterexample :
    computePersonalRecords
      [⟨0, some 1, none, none,
        some [⟨"bench", some [⟨1, some 100, none, 10⟩,
                              ⟨10, some 50, none, 20⟩]⟩]⟩] 10 =
      [⟨"bench", 50, 10, 500, 20⟩] ∧
    (allSetsOf
      [⟨0, some 1, none, none,
        some [⟨"bench", some [⟨1, some 100, none, 10⟩,
                              ⟨10, some 50, none, 20⟩]⟩]⟩]).map
        (fun st => st.weight.getD 0) = [100, 50] ∧
    (50 : ℚ) ≠ 100 := by
  refine ⟨?_, by simp [allSetsOf, completedOf, isCompleted, sessionSets,
    exercisesOf, setsOf], by norm_num⟩
  have hfold : prFold
      [⟨0, some 1, none, none,
        some [⟨"bench", some [⟨1, some 100, none, 10⟩,
                              ⟨10, some 50, none, 20⟩]⟩]⟩] =
      [("bench", ⟨50, 10, 500, 20⟩)] := by
    norm_num [prFold, prStep, mapGet, mapSet, isCompleted, exercisesOf,
      setsOf]
  rw [computePersonalRecords, hfold, List.map_cons, List.map_nil,
    List.mergeSort_singleton]
  rfl

/-- Weight / reps / timestamp of a set, as `computePersonalRecords`
reads them (`weight || 0`). -/
def setTriple (st : WorkoutSet) : ℚ × ℚ × ℤ :=
  (st.weight.getD 0, st.reps, st.completed_at)

/-- The triples logged under exercise `name` across completed sessions,
in traversal order. -/
def setsForName (name : String) (sessions : List NestedWorkoutSession) :
    List (ℚ × ℚ × ℤ) :=
  (completedOf sessions).flatMap fun s =>
    (exercisesOf s).flatMap fun e =>
      if e.name = name then (setsOf e).map setTriple else []

/-- The per-name record update, extracted from `prStep`: what one set
does to the single record of its exercise (including the source's
old-`existing` spreads in the `else` branch). -/
def recStep1 (acc : Option RecAcc) (x : ℚ × ℚ × ℤ) : Option RecAcc :=
  match acc with
  | none => some ⟨x.1, x.2.1, x.1 * x.2.1, x.2.2⟩
  | some existing =>
    if x.1 * x.2.1 > existing.maxVolume then
      some ⟨x.1, x.2.1, x.1 * x.2.1, x.2.2⟩
    else
      let e1 := if x.1 > existing.maxWeight then
        { existing with maxWeight := x.1 } else existing
      if x.2.1 > existing.maxReps then
        some { existing with maxReps := x.2.1 } else some e1

theorem mapGet_cons {α : Type} (e : String × α) (t : List (String × α))
    (k : String) :
    mapGet (e :: t) k = if e.1 = k then some e.2 else mapGet t k := by
  by_cases h : e.1 = k
  · simp [mapGet, List.find?_cons, h]
  · simp [mapGet, List.find?_cons, h]

theorem mapGet_replace_ne {α : Type} (t : List (String × α)) (k k' : String)
    (v : α) (hk : k' ≠ k) :
    mapGet (t.map (fun e => if e.1 == k then (k, v) else e)) k' =
      mapGet t k' := by
  induction t with
  | nil => rfl
  | cons e t ih =>
    rw [List.map_cons, mapGet_cons]
    by_cases hek : e.1 = k
    · rw [if_pos (show (e.1 == k) = true from by simpa using hek)]
      rw [mapGet_cons]
      rw [show ((k, v) : String × α).1 = k from rfl]
      rw [if_neg (fun h => hk h.symm)]
      rw [if_neg (show ¬ e.1 = k' from fun h => hk (by rw [← hek, h]))]
      exact ih
    · rw [if_neg (show ¬ (e.1 == k) = true from by simpa using hek)]
      rw [mapGet_cons]
      by_cases hek' : e.1 = k'
      · rw [if_pos hek', if_pos hek']
      · rw [if_neg hek', if_neg hek']
        exact ih

theorem mapGet_replace_eq {α : Type} (t : List (String × α)) (k : String)
    (v : α) (hany : t.any (fun e => e.1 == k) = true) :
    mapGet (t.map (fun e => if e.1 == k then (k, v) else e)) k = some v := by
  induction t with
  | nil => simp at hany
  | cons e t ih =>
    rw [List.map_cons]
    by_cases hek : e.1 = k
    · rw [if_pos (show (e.1 == k) = true from by simpa using hek)]
      rw [mapGet_cons]
      rw [show ((k, v) : String × α).1 = k from rfl, if_pos rfl]
    · rw [if_neg (show ¬ (e.1 == k) = true from by simpa using hek)]
      rw [mapGet_cons, if_neg hek]
      apply ih
      simp only [List.any_cons, Bool.or_eq_true, beq_iff_eq] at hany
      rcases hany with h | h
      · exact absurd h hek
      · exact h

theorem mapGet_mapSet {α : Type} (m : List (String × α)) (k k' : String)
    (v : α) :
    mapGet (mapSet m k v) k' = if k' = k then some v else mapGet m k' := by
  rw [mapSet]
  by_cases hany : m.any (fun e => e.1 == k) = true
  · rw [if_pos hany]
    by_cases hk : k' = k
    · subst hk
      rw [if_pos rfl]
      exact mapGet_replace_eq m k' v hany
    · rw [if_neg hk]
      exact mapGet_replace_ne m k k' v hk
  · rw [if_neg hany]
    have hnone : m.find? (fun e => e.1 == k) = none := by
      rw [List.find?_eq_none]
      intro e he hbeq
      exact hany (List.any_eq_true.mpr ⟨e, he, hbeq⟩)
    by_cases hk : k' = k
    · subst hk
      rw [if_pos rfl, mapGet, List.find?_append, hnone]
      simp [List.find?]
    · rw [if_neg hk, mapGet, List.find?_append, mapGet]
      have hlast : List.find? (fun e => e.1 == k') [(k, v)] = none := by
        have hb : (((k, v) : String × α).1 == k') = false := by
          simp only [beq_eq_false_iff_ne, ne_eq]
          exact fun h => hk h.symm
        simp [List.find?_cons, hb]
      rw [hlast]
      cases h : m.find? (fun e => e.1 == k') <;> simp [h]

theorem mapGet_prStep (n : String) (m : List (String × RecAcc))
    (st : WorkoutSet) (k : String) :
    mapGet (prStep n m st) k =
      if k = n then recStep1 (mapGet m n) (setTriple st) else mapGet m k := by
  rcases h : mapGet m n with _ | ex
  · simp only [prStep, recStep1, h, setTriple]
    rw [mapGet_mapSet]
  · simp only [prStep, recStep1, h, setTriple]
    by_cases hvol : st.weight.getD 0 * st.reps > ex.maxVolume
    · rw [if_pos hvol, if_pos hvol, mapGet_mapSet]
    · rw [if_neg hvol, if_neg hvol]
      by_cases hreps : st.reps > ex.maxReps
      · rw [if_pos hreps, if_pos hreps, mapGet_mapSet]
        by_cases hk : k = n
        · rw [if_pos hk, if_pos hk]
        · rw [if_neg hk, if_neg hk]
          by_cases hw : st.weight.getD 0 > ex.maxWeight
          · rw [if_pos hw, mapGet_mapSet, if_neg hk]
          · rw [if_neg hw]
      · rw [if_neg hreps, if_neg hreps]
        by_cases hw : st.weight.getD 0 > ex.maxWeight
        · rw [if_pos hw, if_pos hw, mapGet_mapSet]
        · rw [if_neg hw, if_neg hw]
          by_cases hk : k = n
          · rw [if_pos hk, hk, h]
          · rw [if_neg hk]

theorem mapGet_setsFold (n : String) (sets : List WorkoutSet)
    (m : List (String × RecAcc)) (k : String) :
    mapGet (sets.foldl (prStep n) m) k =
      if k = n then (sets.map setTriple).foldl recStep1 (mapGet m n)
      else mapGet m k := by
  induction sets generalizing m with
  | nil =>
    by_cases h : k = n
    · rw [List.foldl_nil, List.map_nil, List.foldl_nil, if_pos h, h]
    · rw [List.foldl_nil, if_neg h]
  | cons st rest ih =>
    rw [List.foldl_cons, ih, List.map_cons, List.foldl_cons]
    by_cases h : k = n
    · subst h
      rw [if_pos rfl, if_pos rfl, mapGet_prStep, if_pos rfl]
    · rw [if_neg h, if_neg h, mapGet_prStep, if_neg h]

theorem mapGet_exsFold (exs : List WorkoutExercise)
    (m : List (String × RecAcc)) (k : String) :
    mapGet (exs.foldl (fun m e => (setsOf e).foldl (prStep e.name) m) m) k =
      (exs.flatMap fun e =>
        if e.name = k then (setsOf e).map setTriple else []).foldl recStep1
        (mapGet m k) := by
  induction exs generalizing m with
  | nil => rfl
  | cons e rest ih =>
    rw [List.foldl_cons, ih, List.flatMap_cons, List.foldl_append]
    congr 1
    rw [mapGet_setsFold]
    by_cases h : k = e.name
    · rw [if_pos h, if_pos h.symm, h]
    · rw [if_neg h, if_neg (fun hh => h hh.symm), List.foldl_nil]

theorem mapGet_sessionsFold (sessions : List NestedWorkoutSession)
    (m : List (String × RecAcc)) (k : String) :
    mapGet (sessions.foldl (fun m session =>
      if isCompleted session then
        (exercisesOf session).foldl (fun m exercise =>
          (setsOf exercise).foldl (prStep exercise.name) m) m
      else m) m) k =
      (setsForName k sessions).foldl recStep1 (mapGet m k) := by
  induction sessions generalizing m with
  | nil => rfl
  | cons s rest ih =>
    rw [List.foldl_cons, ih]
    by_cases hc : isCompleted s = true
    · rw [if_pos hc]
      have hsplit : setsForName k (s :: rest) =
          ((exercisesOf s).flatMap fun e =>
            if e.name = k then (setsOf e).map setTriple else []) ++
            setsForName k rest := by
        rw [setsForName, setsForName, completedOf, completedOf,
          List.filter_cons, if_pos hc, List.flatMap_cons]
      rw [hsplit, List.foldl_append, mapGet_exsFold]
    · rw [if_neg hc]
      have hsplit : setsForName k (s :: rest) = setsForName k rest := by
        rw [setsForName, setsForName, completedOf, completedOf,
          List.filter_cons, if_neg hc]
      rw [hsplit]

/-- The record stored under `name` is exactly the left fold of the
per-set update over the sets logged under `name`, in order. -/
theorem mapGet_prFold (sessions : List NestedWorkoutSession) (k : String) :
    mapGet (prFold sessions) k =
      (setsForName k sessions).foldl recStep1 none := by
  rw [prFold, mapGet_sessionsFold]
  rfl

/-- One step of the "sets since the last strict record volume" scan
(amended reading of C1): a set strictly above the running max volume
starts a fresh suffix, every other set extends it. -/
def recSufStep (acc : List (ℚ × ℚ × ℤ)) (x : ℚ × ℚ × ℤ) :
    List (ℚ × ℚ × ℤ) :=
  match acc with
  | [] => [x]
  | h :: _ => if x.1 * x.2.1 > h.1 * h.2.1 then [x] else acc ++ [x]

/-- The sets from the most recent strict improvement of the running
maximum volume onward, in order. -/
def recSuffix (l : List (ℚ × ℚ × ℤ)) : List (ℚ × ℚ × ℤ) :=
  l.foldl recSufStep []

/-- Maximum weight over a non-empty suffix `h :: t`. -/
def sufMaxW (h : ℚ × ℚ × ℤ) (t : List (ℚ × ℚ × ℤ)) : ℚ :=
  (t.map (·.1)).foldl max h.1

/-- Maximum reps over a non-empty suffix `h :: t`. -/
def sufMaxR (h : ℚ × ℚ × ℤ) (t : List (ℚ × ℚ × ℤ)) : ℚ :=
  (t.map (·.2.1)).foldl max h.2.1

theorem le_foldl_max (b : ℚ) (l : List ℚ) : b ≤ l.foldl max b := by
  induction l generalizing b with
  | nil => exact le_rfl
  | cons x t ih => exact le_trans (le_max_left b x) (ih (max b x))

theorem mem_le_foldl_max (b : ℚ) (l : List ℚ) :
    ∀ x ∈ l, x ≤ l.foldl max b := by
  induction l generalizing b with
  | nil => intro x hx; simp at hx
  | cons y t ih =>
    intro x hx
    rcases List.mem_cons.mp hx with h | h
    · subst h
      exact le_trans (le_max_right b x) (le_foldl_max (max b x) t)
    · exact ih (max b y) x h

theorem foldl_max_mem (b : ℚ) (l : List ℚ) : l.foldl max b ∈ b :: l := by
  induction l generalizing b with
  | nil => simp
  | cons x t ih =>
    rw [List.foldl_cons]
    rcases List.mem_cons.mp (ih (max b x)) with h | h
    · rw [h]
      rcases max_choice b x with hm | hm <;> rw [hm] <;> simp
    · simp [h]

theorem sufMaxW_append (h : ℚ × ℚ × ℤ) (t : List (ℚ × ℚ × ℤ))
    (x : ℚ × ℚ × ℤ) : sufMaxW h (t ++ [x]) = max (sufMaxW h t) x.1 := by
  rw [sufMaxW, sufMaxW, List.map_append, List.foldl_append]
  rfl

theorem sufMaxR_append (h : ℚ × ℚ × ℤ) (t : List (ℚ × ℚ × ℤ))
    (x : ℚ × ℚ × ℤ) : sufMaxR h (t ++ [x]) = max (sufMaxR h t) x.2.1 := by
  rw [sufMaxR, sufMaxR, List.map_append, List.foldl_append]
  rfl

/-- Characterization of the per-name fold (assuming non-negative weights
and reps, the sanitized-input contract): the stored `maxVolume` is the
volume of the head of `recSuffix` (the last strict record), and
`maxWeight` / `maxReps` are the maxima over `recSuffix` only. -/
theorem recStep1_fold_suffix (l : List (ℚ × ℚ × ℤ))
    (hw : ∀ x ∈ l, 0 ≤ x.1) (hr : ∀ x ∈ l, 0 ≤ x.2.1) (hne : l ≠ []) :
    ∃ h t, recSuffix l = h :: t ∧ (h :: t) ⊆ l ∧
      (∀ x ∈ l, x.1 * x.2.1 ≤ h.1 * h.2.1) ∧
      l.foldl recStep1 none =
        some ⟨sufMaxW h t, sufMaxR h t, h.1 * h.2.1, h.2.2⟩ := by
  induction l using List.reverseRecOn with
  | nil => exact absurd rfl hne
  | append_singleton l x ih =>
    by_cases hl : l = []
    · subst hl
      refine ⟨x, [], rfl, by simp, ?_, rfl⟩
      intro y hy
      simp only [List.nil_append, List.mem_singleton] at hy
      subst hy
      exact le_rfl
    · have hwl : ∀ y ∈ l, 0 ≤ y.1 :=
        fun y hy => hw y (List.mem_append_left _ hy)
      have hrl : ∀ y ∈ l, 0 ≤ y.2.1 :=
        fun y hy => hr y (List.mem_append_left _ hy)
      obtain ⟨h, t, hsuf, hsub, hmaxv, hfold⟩ := ih hwl hrl hl
      have hHmem : h ∈ l := hsub (List.mem_cons_self h t)
      have hH1 : 0 ≤ h.1 := hwl h hHmem
      have hH2 : 0 ≤ h.2.1 := hrl h hHmem
      have hW : h.1 ≤ sufMaxW h t := le_foldl_max _ _
      have hR : h.2.1 ≤ sufMaxR h t := le_foldl_max _ _
      have hsufx : recSuffix (l ++ [x]) = recSufStep (h :: t) x := by
        rw [recSuffix, List.foldl_append,
          show List.foldl recSufStep [] l = recSuffix l from rfl, hsuf]
        rfl
      have hfoldx : (l ++ [x]).foldl recStep1 none =
          recStep1 (some ⟨sufMaxW h t, sufMaxR h t, h.1 * h.2.1, h.2.2⟩) x := by
        rw [List.foldl_append, hfold]
        rfl
      by_cases hvx : x.1 * x.2.1 > h.1 * h.2.1
      · refine ⟨x, [], ?_, by simp, ?_, ?_⟩
        · rw [hsufx]
          simp only [recSufStep]
          rw [if_pos hvx]
        · intro y hy
          rcases List.mem_append.mp hy with h1 | h1
          · exact le_trans (hmaxv y h1) (le_of_lt hvx)
          · rw [List.mem_singleton] at h1
            subst h1
            exact le_rfl
        · rw [hfoldx]
          simp only [recStep1]
          rw [if_pos hvx]
          rfl
      · refine ⟨h, t ++ [x], ?_, ?_, ?_, ?_⟩
        · rw [hsufx]
          simp only [recSufStep]
          rw [if_neg hvx]
          rfl
        · intro y hy
          rcases List.mem_cons.mp hy with h1 | h1
          · subst h1
            exact List.mem_append_left _ hHmem
          · rcases List.mem_append.mp h1 with h2 | h2
            · exact List.mem_append_left _ (hsub (List.mem_cons_of_mem _ h2))
            · exact List.mem_append_right _ h2
        · intro y hy
          rcases List.mem_append.mp hy with h1 | h1
          · exact hmaxv y h1
          · rw [List.mem_singleton] at h1
            subst h1
            exact le_of_not_lt hvx
        · rw [hfoldx]
          simp only [recStep1]
          rw [if_neg hvx]
          have hnotboth : ¬(x.1 > sufMaxW h t ∧ x.2.1 > sufMaxR h t) := by
            rintro ⟨h1, h2⟩
            have hlt : sufMaxW h t * sufMaxR h t < x.1 * x.2.1 :=
              mul_lt_mul'' h1 h2 (le_trans hH1 hW) (le_trans hH2 hR)
            have hle : h.1 * h.2.1 ≤ sufMaxW h t * sufMaxR h t :=
              mul_le_mul hW hR hH2 (le_trans hH1 hW)
            exact hvx (lt_of_le_of_lt hle hlt)
          by_cases hreps : x.2.1 > sufMaxR h t
          · have hwle : x.1 ≤ sufMaxW h t :=
              not_lt.mp (fun hgt => hnotboth ⟨hgt, hreps⟩)
            rw [if_pos hreps, sufMaxW_append, sufMaxR_append,
              max_eq_left hwle, max_eq_right (le_of_lt hreps)]
          · rw [if_neg hreps, sufMaxW_append, sufMaxR_append,
              max_eq_left (not_lt.mp hreps)]
            by_cases hwgt : x.1 > sufMaxW h t
            · rw [if_pos hwgt, max_eq_right (le_of_lt hwgt)]
            · rw [if_neg hwgt, max_eq_left (not_lt.mp hwgt)]

theorem foldl_preserve {α β : Type} (P : α → Prop) (f : α → β → α)
    (l : List β) (init : α) (hinit : P init)
    (hstep : ∀ a b, P a → P (f a b)) : P (l.foldl f init) := by
  induction l generalizing init with
  | nil => exact hinit
  | cons b t ih => exact ih (f init b) (hstep init b hinit)

theorem keys_mapSet {α : Type} (m : List (String × α)) (k : String) (v : α) :
    (mapSet m k v).map Prod.fst =
      if m.any (fun e => e.1 == k) then m.map Prod.fst
      else m.map Prod.fst ++ [k] := by
  rw [mapSet]
  by_cases hany : m.any (fun e => e.1 == k) = true
  · rw [if_pos hany, if_pos hany, List.map_map]
    apply List.map_congr_left
    intro e _
    by_cases hek : e.1 = k
    · simp only [Function.comp_apply,
        if_pos (show (e.1 == k) = true from by simpa using hek)]
      exact hek.symm
    · simp only [Function.comp_apply,
        if_neg (show ¬(e.1 == k) = true from by simpa using hek)]
  · rw [if_neg hany, if_neg hany, List.map_append]
    rfl

theorem keysNodup_mapSet {α : Type} (m : List (String × α)) (k : String)
    (v : α) (h : (m.map Prod.fst).Nodup) :
    ((mapSet m k v).map Prod.fst).Nodup := by
  rw [keys_mapSet]
  by_cases hany : m.any (fun e => e.1 == k) = true
  · rw [if_pos hany]; exact h
  · rw [if_neg hany]
    rw [List.nodup_append]
    refine ⟨h, List.nodup_singleton k, ?_⟩
    intro a ha
    rw [List.mem_map] at ha
    obtain ⟨e, he, rfl⟩ := ha
    simp only [List.mem_singleton]
    intro hek
    exact hany (List.any_eq_true.mpr ⟨e, he, by simpa using hek⟩)

theorem keysNodup_prStep (n : String) (m : List (String × RecAcc))
    (st : WorkoutSet) (h : (m.map Prod.fst).Nodup) :
    ((prStep n m st).map Prod.fst).Nodup := by
  rw [prStep]
  rcases mapGet m n with _ | ex
  · exact keysNodup_mapSet _ _ _ h
  · simp only
    by_cases hvol : st.weight.getD 0 * st.reps > ex.maxVolume
    · rw [if_pos hvol]
      exact keysNodup_mapSet _ _ _ h
    · rw [if_neg hvol]
      by_cases hreps : st.reps > ex.maxReps
      · rw [if_pos hreps]
        apply keysNodup_mapSet
        by_cases hw : st.weight.getD 0 > ex.maxWeight
        · rw [if_pos hw]; exact keysNodup_mapSet _ _ _ h
        · rw [if_neg hw]; exact h
      · rw [if_neg hreps]
        by_cases hw : st.weight.getD 0 > ex.maxWeight
        · rw [if_pos hw]; exact keysNodup_mapSet _ _ _ h
        · rw [if_neg hw]; exact h

theorem keysNodup_prFold (sessions : List NestedWorkoutSession) :
    ((prFold sessions).map Prod.fst).Nodup := by
  rw [prFold]
  apply foldl_preserve (fun m => (List.map Prod.fst m).Nodup)
  · exact List.nodup_nil
  · intro m s hm
    by_cases hc : isCompleted s = true
    · rw [if_pos hc]
      apply foldl_preserve (fun m => (List.map Prod.fst m).Nodup) _ _ _ hm
      intro m e hm'
      exact foldl_preserve (fun m => (List.map Prod.fst m).Nodup) _ _ _ hm'
        (fun m' st h => keysNodup_prStep e.name m' st h)
    · rw [if_neg hc]
      exact hm

theorem mapGet_of_mem_nodup {α : Type} (m : List (String × α))
    (e : String × α) (he : e ∈ m)
    (hnd : (m.map Prod.fst).Nodup) : mapGet m e.1 = some e.2 := by
  induction m with
  | nil => simp at he
  | cons e' t ih =>
    rw [mapGet_cons]
    rcases List.mem_cons.mp he with h | h
    · subst h
      rw [if_pos rfl]
    · rw [List.map_cons, List.nodup_cons] at hnd
      rw [if_neg ?_]
      · exact ih h hnd.2
      · intro hek
        exact hnd.1 (hek ▸ List.mem_map.mpr ⟨e, h, rfl⟩)

theorem setsForName_sub (name : String)
    (sessions : List NestedWorkoutSession) :
    ∀ x ∈ setsForName name sessions,
      ∃ st ∈ allSetsOf sessions, x = setTriple st := by
  intro x hx
  rw [setsForName, List.mem_flatMap] at hx
  obtain ⟨s, hs, hx⟩ := hx
  rw [List.mem_flatMap] at hx
  obtain ⟨e, he, hx⟩ := hx
  by_cases hname : e.name = name
  · rw [if_pos hname, List.mem_map] at hx
    obtain ⟨st, hst, rfl⟩ := hx
    refine ⟨st, ?_, rfl⟩
    rw [allSetsOf, List.mem_flatMap]
    exact ⟨s, hs, by rw [sessionSets, List.mem_flatMap]; exact ⟨e, he, hst⟩⟩
  · rw [if_neg hname] at hx
    simp at hx

/-- C1 (amended): for each exercise name the stored `maxVolume` is the
maximum single-set volume over all sets logged under that name, but
`maxWeight` and `maxReps` are *not* the all-set maxima: a set strictly
exceeding the running maximum volume resets them to its own weight and
reps, so they equal the maxima over only the sets from the most recent
strict record-volume set onward (`recSuffix`), assuming the sanitized
non-negative weights and reps the spec's §7 contract requires.  Every
returned `PersonalRecord` is the stored record of its name. -/
theorem C1_personalRecords_amended (sessions : List NestedWorkoutSession)
    (hw : ∀ st ∈ allSetsOf sessions, 0 ≤ st.weight.getD 0)
    (hr : ∀ st ∈ allSetsOf sessions, 0 ≤ st.reps) :
    (∀ name, setsForName name sessions ≠ [] →
      ∃ h t, recSuffix (setsForName name sessions) = h :: t ∧
        (h :: t) ⊆ setsForName name sessions ∧
        mapGet (prFold sessions) name =
          some ⟨sufMaxW h t, sufMaxR h t, h.1 * h.2.1, h.2.2⟩ ∧
        (∀ x ∈ setsForName name sessions, x.1 * x.2.1 ≤ h.1 * h.2.1) ∧
        sufMaxW h t ∈ (h :: t).map (·.1) ∧
        (∀ w ∈ (h :: t).map (·.1), w ≤ sufMaxW h t) ∧
        sufMaxR h t ∈ (h :: t).map (·.2.1) ∧
        (∀ rp ∈ (h :: t).map (·.2.1), rp ≤ sufMaxR h t)) ∧
    (∀ limit : ℕ, ∀ r ∈ computePersonalRecords sessions limit,
      mapGet (prFold sessions) r.exerciseName =
        some ⟨r.maxWeight, r.maxReps, r.maxVolume, r.achievedAt⟩) := by
  constructor
  · intro name hne
    have hw' : ∀ x ∈ setsForName name sessions, 0 ≤ x.1 := by
      intro x hx
      obtain ⟨st, hst, rfl⟩ := setsForName_sub name sessions x hx
      exact hw st hst
    have hr' : ∀ x ∈ setsForName name sessions, 0 ≤ x.2.1 := by
      intro x hx
      obtain ⟨st, hst, rfl⟩ := setsForName_sub name sessions x hx
      exact hr st hst
    obtain ⟨h, t, hsuf, hsub, hmaxv, hfold⟩ :=
      recStep1_fold_suffix _ hw' hr' hne
    refine ⟨h, t, hsuf, hsub, ?_, hmaxv, ?_, ?_, ?_, ?_⟩
    · rw [mapGet_prFold, hfold]
    · exact foldl_max_mem _ _
    · intro w hwmem
      rw [List.map_cons, List.mem_cons] at hwmem
      rcases hwmem with h1 | h1
      · subst h1
        exact le_foldl_max _ _
      · exact mem_le_foldl_max _ _ _ h1
    · exact foldl_max_mem _ _
    · intro rp hrpmem
      rw [List.map_cons, List.mem_cons] at hrpmem
      rcases hrpmem with h1 | h1
      · subst h1
        exact le_foldl_max _ _
      · exact mem_le_foldl_max _ _ _ h1
  · intro limit r hr'
    have hmem : r ∈ ((prFold sessions).map (fun e =>
        PersonalRecord.mk e.1 e.2.maxWeight e.2.maxReps e.2.maxVolume
          e.2.achievedAt)) := by
      have h1 := List.mem_of_mem_take hr'
      exact List.mem_mergeSort.mp h1
    rw [List.mem_map] at hmem
    obtain ⟨e, he, rfl⟩ := hmem
    exact mapGet_of_mem_nodup _ e he (keysNodup_prFold sessions)

/-- Witness for C1's amended statement, at the counterexample input: the
record returned for `"bench"` is the one stored in the fold map. -/
theorem C1_personalRecords_amended_witness :
    mapGet (prFold
      [⟨0, some 1, none, none,
        some [⟨"bench", some [⟨1, some 100, none, 10⟩,
                              ⟨10, some 50, none, 20⟩]⟩]⟩]) "bench" =
      some ⟨50, 10, 500, 20⟩ := by
  have heval : computePersonalRecords
      [⟨0, some 1, none, none,
        some [⟨"bench", some [⟨1, some 100, none, 10⟩,
                              ⟨10, some 50, none, 20⟩]⟩]⟩] 10 =
      [⟨"bench", 50, 10, 500, 20⟩] := by
    have hfold : prFold
        [⟨0, some 1, none, none,
          some [⟨"bench", some [⟨1, some 100, none, 10⟩,
                                ⟨10, some 50, none, 20⟩]⟩]⟩] =
        [("bench", ⟨50, 10, 500, 20⟩)] := by
      norm_num [prFold, prStep, mapGet, mapSet, isCompleted, exercisesOf,
        setsOf]
    rw [computePersonalRecords, hfold, List.map_cons, List.map_nil,
      List.mergeSort_singleton]
    rfl
  exact (C1_personalRecords_amended _ (by decide) (by decide)).2 10
    ⟨"bench", 50, 10, 500, 20⟩ (by rw [heval]; exact List.mem_singleton_self _)

/-! ### Muscle-group breakdown (C2) -/

/-- Per-group accumulator of `computeMuscleGroupBreakdown`. -/
structure MGAcc where
  volume : ℚ
  sets : ℕ
  reps : ℚ
deriving DecidableEq

/-- The `MuscleGroupStat` output record. -/
structure MuscleGroupStat where
  muscleGroup : String
  volume : ℤ
  sets : ℕ
  reps : ℚ
  percentage : ℤ
deriving DecidableEq

/-- The `muscleGroups.forEach(...)`: attribute one set's volume / count /
reps to every mapped muscle group. -/
def mgStep (groups : List String) (volume reps : ℚ)
    (m : List (String × MGAcc)) : List (String × MGAcc) :=
  groups.foldl (fun m g =>
    let existing := (mapGet m g).getD ⟨0, 0, 0⟩
    mapSet m g
      ⟨existing.volume + volume, existing.sets + 1, existing.reps + reps⟩) m

/-- The accumulation pass of `computeMuscleGroupBreakdown` (the
`muscleGroupStats` map together with `totalVolume`, which the source
increments *once per set*, outside the per-group loop).  The
exercise-name → muscle-groups table (`exerciseTemplates.json`, keyed by
lowercased name) is a parameter `emap`; an unmapped name attributes to
`["Other"]`. -/
def mgFold (emap : String → Option (List String))
    (sessions : List NestedWorkoutSession) :
    List (String × MGAcc) × ℚ :=
  sessions.foldl (fun acc session =>
    if isCompleted session then
      (exercisesOf session).foldl (fun acc exercise =>
        (setsOf exercise).foldl (fun acc st =>
          (mgStep ((emap exercise.name.toLower).getD ["Other"])
            (setVolume st) st.reps acc.1,
           acc.2 + setVolume st)) acc) acc
    else acc) ([], 0)

/-- The `computeMuscleGroupBreakdown` (statistics.ts): map entries to the
output shape (rounded volume, percentage of `totalVolume`, 0 when the
total is 0), sorted descending by volume. -/
def computeMuscleGroupBreakdown (emap : String → Option (List String))
    (sessions : List NestedWorkoutSession) : List MuscleGroupStat :=
  let m := (mgFold emap sessions).1
  let totalVolume := (mgFold emap sessions).2
  ((m.map (fun e => MuscleGroupStat.mk e.1 (jsRound e.2.volume) e.2.sets
      e.2.reps
      (if totalVolume > 0 then jsRound (e.2.volume / totalVolume * 100)
       else 0))).mergeSort
    (fun a b => decide (b.volume ≤ a.volume)))

theorem jsRound_eval {q : ℚ} {z : ℤ} (h1 : (z : ℚ) ≤ q + 1/2)
    (h2 : q + 1/2 < z + 1) : jsRound q = z := by
  rw [jsRound_eq]
  exact Int.floor_eq_iff.mpr ⟨h1, h2⟩

/-- C2 (counterexample): an exercise mapped to two muscle groups, one
50×... set of volume 100.  The set's volume enters each group once but
the percentage denominator `totalVolume` only once in total (it is
accumulated per *set*, outside the per-group loop), so both groups get
percentage 100; under the claim's double-counted denominator (200) each
percentage would be `round(100/200·100) = 50`. -/
theorem C2_muscleGroups_counterexample :
    computeMuscleGroupBreakdown (fun _ => some ["A", "B"])
      [⟨0, some 1, none, none,
        some [⟨"x", some [⟨10, some 10, none, 0⟩]⟩]⟩] =
      [⟨"A", 100, 1, 10, 100⟩, ⟨"B", 100, 1, 10, 100⟩] ∧
    jsRound ((100 : ℚ) / 200 * 100) = 50 ∧ (100 : ℤ) ≠ 50 := by
  refine ⟨?_, jsRound_eval (by norm_num) (by norm_num), by norm_num⟩
  have hAB : (("A" : String) = "B") = False := by
    simp only [eq_iff_iff, iff_false]
    decide
  have hfold : mgFold (fun _ => some ["A", "B"])
      [⟨0, some 1, none, none,
        some [⟨"x", some [⟨10, some 10, none, 0⟩]⟩]⟩] =
      ([("A", ⟨100, 1, 10⟩), ("B", ⟨100, 1, 10⟩)], 100) := by
    norm_num [mgFold, mgStep, mapGet, mapSet, isCompleted, exercisesOf,
      setsOf, setVolume, hAB]
  have h100 : jsRound (100 : ℚ) = 100 :=
    jsRound_eval (by norm_num) (by norm_num)
  have hpct : jsRound ((100 : ℚ) / 100 * 100) = 100 :=
    jsRound_eval (by norm_num) (by norm_num)
  rw [computeMuscleGroupBreakdown]
  norm_num [hfold, h100, hpct, List.mergeSort, List.merge]

theorem snd_setsFold (G : List String) (sets : List WorkoutSet)
    (acc : List (String × MGAcc) × ℚ) :
    (sets.foldl (fun acc st =>
      (mgStep G (setVolume st) st.reps acc.1, acc.2 + setVolume st)) acc).2 =
      acc.2 + (sets.map setVolume).sum := by
  induction sets generalizing acc with
  | nil => simp
  | cons st rest ih =>
    rw [List.foldl_cons, ih, List.map_cons, List.sum_cons]
    simp only
    ring

theorem snd_exsFold (emap : String → Option (List String))
    (exs : List WorkoutExercise) (acc : List (String × MGAcc) × ℚ) :
    (exs.foldl (fun acc exercise =>
      (setsOf exercise).foldl (fun acc st =>
        (mgStep ((emap exercise.name.toLower).getD ["Other"])
          (setVolume st) st.reps acc.1,
         acc.2 + setVolume st)) acc) acc).2 =
      acc.2 + ((exs.flatMap setsOf).map setVolume).sum := by
  induction exs generalizing acc with
  | nil => simp
  | cons e rest ih =>
    rw [List.foldl_cons, ih, snd_setsFold, List.flatMap_cons,
      List.map_append, List.sum_append]
    ring

/-- The percentage denominator accumulated by `computeMuscleGroupBreakdown`
is the total volume over all sets of completed sessions, each set counted
*once* (not once per muscle group). -/
theorem mgFold_snd (emap : String → Option (List String))
    (sessions : List NestedWorkoutSession) :
    (mgFold emap sessions).2 = ((allSetsOf sessions).map setVolume).sum := by
  rw [mgFold]
  have hgen : ∀ acc : List (String × MGAcc) × ℚ,
      (sessions.foldl (fun acc session =>
        if isCompleted session then
          (exercisesOf session).foldl (fun acc exercise =>
            (setsOf exercise).foldl (fun acc st =>
              (mgStep ((emap exercise.name.toLower).getD ["Other"])
                (setVolume st) st.reps acc.1,
               acc.2 + setVolume st)) acc) acc
        else acc) acc).2 =
      acc.2 + ((allSetsOf sessions).map setVolume).sum := by
    induction sessions with
    | nil => intro acc; simp [allSetsOf, completedOf]
    | cons s rest ih =>
      intro acc
      rw [List.foldl_cons]
      by_cases hc : isCompleted s = true
      · rw [if_pos hc, ih, snd_exsFold]
        have : allSetsOf (s :: rest) = sessionSets s ++ allSetsOf rest := by
          rw [allSetsOf, allSetsOf, completedOf, completedOf,
            List.filter_cons, if_pos hc, List.flatMap_cons]
        rw [this, List.map_append, List.sum_append, sessionSets]
        ring
      · rw [if_neg hc, ih]
        have : allSetsOf (s :: rest) = allSetsOf rest := by
          rw [allSetsOf, allSetsOf, completedOf, completedOf,
            List.filter_cons, if_neg hc]
        rw [this]
  rw [hgen ([], 0)]
  simp

/-- C2 (amended): each returned group's `percentage` is
`round(groupVolume / totalSetVolume · 100)` (0 when the total is 0),
where the denominator `totalSetVolume` is the sum of `weight·reps` over
all sets of completed sessions, each set counted *once* — not the
attributed volume summed across groups.  For an exercise mapped to two
groups a set's volume enters both group volumes but the denominator only
once, so percentages can sum to more than 100. -/
theorem C2_muscleGroups_amended (emap : String → Option (List String))
    (sessions : List NestedWorkoutSession) :
    (mgFold emap sessions).2 = ((allSetsOf sessions).map setVolume).sum ∧
    ∀ g ∈ computeMuscleGroupBreakdown emap sessions,
      ∃ acc : MGAcc, (g.muscleGroup, acc) ∈ (mgFold emap sessions).1 ∧
        g.volume = jsRound acc.volume ∧ g.sets = acc.sets ∧
        g.reps = acc.reps ∧
        g.percentage =
          (if ((allSetsOf sessions).map setVolume).sum > 0 then
            jsRound (acc.volume /
              ((allSetsOf sessions).map setVolume).sum * 100)
          else 0) := by
  refine ⟨mgFold_snd emap sessions, ?_⟩
  intro g hg
  rw [computeMuscleGroupBreakdown] at hg
  simp only [List.mem_mergeSort, List.mem_map] at hg
  obtain ⟨e, he, rfl⟩ := hg
  refine ⟨e.2, by simpa using he, rfl, rfl, rfl, ?_⟩
  rw [mgFold_snd]

/-- Witness for C2's amended statement at the counterexample input:
group `"A"` holds attributed volume 100 with the denominator 100
(counted once per set), yielding percentage 100. -/
theorem C2_muscleGroups_amended_witness :
    ∃ acc : MGAcc,
      ((MuscleGroupStat.mk "A" 100 1 10 100).muscleGroup, acc) ∈
        (mgFold (fun _ => some ["A", "B"])
          [⟨0, some 1, none, none,
            some [⟨"x", some [⟨10, some 10, none, 0⟩]⟩]⟩]).1 ∧
      (MuscleGroupStat.mk "A" 100 1 10 100).volume = jsRound acc.volume ∧
      (MuscleGroupStat.mk "A" 100 1 10 100).sets = acc.sets ∧
      (MuscleGroupStat.mk "A" 100 1 10 100).reps = acc.reps ∧
      (MuscleGroupStat.mk "A" 100 1 10 100).percentage =
        (if ((allSetsOf [⟨0, some 1, none, none,
            some [⟨"x", some [⟨10, some 10, none, 0⟩]⟩]⟩]).map
              setVolume).sum > 0 then
          jsRound ((MGAcc.volume acc) /
            ((allSetsOf [⟨0, some 1, none, none,
              some [⟨"x", some [⟨10, some 10, none, 0⟩]⟩]⟩]).map
                setVolume).sum * 100)
        else 0) := by
  apply (C2_muscleGroups_amended (fun _ => some ["A", "B"])
    [⟨0, some 1, none, none,
      some [⟨"x", some [⟨10, some 10, none, 0⟩]⟩]⟩]).2
  have hAB : (("A" : String) = "B") = False := by
    simp only [eq_iff_iff, iff_false]
    decide
  have hfold : mgFold (fun _ => some ["A", "B"])
      [⟨0, some 1, none, none,
        some [⟨"x", some [⟨10, some 10, none, 0⟩]⟩]⟩] =
      ([("A", ⟨100, 1, 10⟩), ("B", ⟨100, 1, 10⟩)], 100) := by
    norm_num [mgFold, mgStep, mapGet, mapSet, isCompleted, exercisesOf,
      setsOf, setVolume, hAB]
  have h100 : jsRound (100 : ℚ) = 100 :=
    jsRound_eval (by norm_num) (by norm_num)
  have hpct : jsRound ((100 : ℚ) / 100 * 100) = 100 :=
    jsRound_eval (by norm_num) (by norm_num)
  rw [computeMuscleGroupBreakdown]
  norm_num [hfold, h100, hpct, List.mergeSort, List.merge]

/-! ### Strength trend (for C5) -/

/-- The `StrengthTrendPoint` output record. -/
structure StrengthTrendPoint where
  date : String
  strengthScore : ℚ
  workoutNumber : ℕ
deriving DecidableEq

/-- The `toLocaleDateString('en-US', {month:'short', day:'numeric'})` under
the fixed-offset model. -/
def formatShortDate (tz t : ℤ) : String :=
  let c := civilFromDays (localDayOf tz t)
  (["Jan", "Feb", "Mar", "Apr", "May", "Jun", "Jul", "Aug", "Sep", "Oct",
    "Nov", "Dec"].getD (c.2.1 - 1) "") ++ " " ++ natStr c.2.2

/-- JS `Array.prototype.slice(-limit)`: the last `limit` elements, the
whole array when `limit = 0` (`slice(-0)` is `slice(0)`). -/
def jsSliceNeg {α : Type} (l : List α) (limit : ℕ) : List α :=
  if limit = 0 then l else l.drop (l.length - limit)

/-- The `prepareStrengthTrendData` (statistics.ts): completed sessions with
non-null `strength_score`, ascending by `started_at` (stable), last
`limit`, numbered from 1. -/
def prepareStrengthTrendData (tz : ℤ)
    (sessions : List NestedWorkoutSession) (limit : ℕ) :
    List StrengthTrendPoint :=
  let completedSessions := jsSliceNeg
    ((sessions.filter
      (fun s => s.ended_at.isSome && s.strength_score.isSome)).mergeSort
      (fun a b => decide (a.started_at ≤ b.started_at))) limit
  completedSessions.mapIdx (fun i session =>
    ⟨formatShortDate tz session.started_at, session.strength_score.getD 0,
     i + 1⟩)

/-! ### C5: sessions with null endedAt are invisible to every computation -/

theorem completedOf_idem (sessions : List NestedWorkoutSession) :
    completedOf (completedOf sessions) = completedOf sessions := by
  rw [completedOf, completedOf, List.filter_filter]
  apply List.filter_congr
  intro s _
  rw [Bool.and_self]

theorem foldl_filter_skip {α β : Type} (p : β → Bool) (f : α → β → α)
    (hf : ∀ a b, p b = false → f a b = a) :
    ∀ (l : List β) (init : α), (l.filter p).foldl f init = l.foldl f init := by
  intro l
  induction l with
  | nil => intro init; rfl
  | cons b t ih =>
    intro init
    rw [List.filter_cons]
    by_cases hp : p b = true
    · rw [if_pos hp, List.foldl_cons, List.foldl_cons, ih]
    · rw [if_neg (by simpa using hp), List.foldl_cons, ih,
        hf init b (by simpa using hp)]

theorem filter_and_completed {q : NestedWorkoutSession → Bool}
    (hq : ∀ s, q s = true → isCompleted s = true)
    (sessions : List NestedWorkoutSession) :
    (completedOf sessions).filter q = sessions.filter q := by
  rw [completedOf, List.filter_filter]
  apply List.filter_congr
  intro s _
  by_cases h : q s = true
  · rw [h, hq s h, Bool.and_self]
  · rw [Bool.not_eq_true] at h
    rw [h, Bool.false_and]

theorem filterMap_ended_completedOf (sessions : List NestedWorkoutSession) :
    (completedOf sessions).filterMap (·.ended_at) =
      sessions.filterMap (·.ended_at) := by
  induction sessions with
  | nil => rfl
  | cons s t ih =>
    rw [completedOf, List.filter_cons]
    by_cases hc : isCompleted s = true
    · rw [if_pos hc, List.filterMap_cons, List.filterMap_cons]
      rw [completedOf] at ih
      cases h : s.ended_at with
      | none => rw [ih]
      | some v => rw [ih]
    · rw [if_neg (by simpa using hc), List.filterMap_cons]
      have hnone : s.ended_at = none := by
        rw [isCompleted] at hc
        exact Option.not_isSome_iff_eq_none.mp hc
      rw [hnone]
      rw [completedOf] at ih
      exact ih

/-- C5: every core computation ignores sessions with null `endedAt`:
applied to the sublist of completed sessions it returns exactly the same
result as on the full list — streaks (including `totalWorkouts`),
all-time stats, period stats and comparison, personal records, muscle
groups, and the strength trend. -/
theorem C5_null_endedAt_insensitive (tz now startDate endDate days : ℤ)
    (limit : ℕ) (emap : String → Option (List String))
    (sessions : List NestedWorkoutSession) :
    calculateStreaksK tz now (completedOf sessions) =
      calculateStreaksK tz now sessions ∧
    computeAllTimeStats (completedOf sessions) =
      computeAllTimeStats sessions ∧
    computePeriodStats (completedOf sessions) startDate endDate =
      computePeriodStats sessions startDate endDate ∧
    computePeriodComparison now (completedOf sessions) days =
      computePeriodComparison now sessions days ∧
    computePersonalRecords (completedOf sessions) limit =
      computePersonalRecords sessions limit ∧
    computeMuscleGroupBreakdown emap (completedOf sessions) =
      computeMuscleGroupBreakdown emap sessions ∧
    prepareStrengthTrendData tz (completedOf sessions) limit =
      prepareStrengthTrendData tz sessions limit := by
  have hdays : getWorkoutDaysK tz (completedOf sessions) =
      getWorkoutDaysK tz sessions := by
    rw [getWorkoutDaysK, getWorkoutDaysK, filterMap_ended_completedOf]
  have hlen : (completedOf sessions).filter (fun s => isCompleted s) =
      completedOf sessions := completedOf_idem sessions
  have hperiod : ∀ a b : ℤ, computePeriodStats (completedOf sessions) a b =
      computePeriodStats sessions a b := by
    intro a b
    rw [computePeriodStats, computePeriodStats,
      filter_and_completed (q := periodPred a b)
        (fun s hs => by
          rw [periodPred, Bool.and_eq_true, Bool.and_eq_true] at hs
          exact hs.1.1) sessions]
  refine ⟨?_, ?_, hperiod startDate endDate, ?_, ?_, ?_, ?_⟩
  · rw [calculateStreaksK, calculateStreaksK, hdays, hlen, completedOf]
  · rw [computeAllTimeStats, computeAllTimeStats]
    simp only [allSetsOf, rirListOf, completedOf_idem]
  · rw [computePeriodComparison, computePeriodComparison]
    simp only [hperiod]
  · rw [computePersonalRecords, computePersonalRecords, prFold, prFold,
      completedOf,
      foldl_filter_skip (fun s => isCompleted s) _
        (fun m s hs => by rw [if_neg (by simpa using hs)]) sessions []]
  · rw [computeMuscleGroupBreakdown, computeMuscleGroupBreakdown, mgFold,
      mgFold, completedOf,
      foldl_filter_skip (fun s => isCompleted s) _
        (fun m s hs => by rw [if_neg (by simpa using hs)]) sessions ([], 0)]
  · rw [prepareStrengthTrendData, prepareStrengthTrendData,
      filter_and_completed
        (q := fun s => s.ended_at.isSome && s.strength_score.isSome)
        (fun s hs => by
          rw [Bool.and_eq_true] at hs
          exact hs.1) sessions]

end BeatFitness
